import Mathlib

set_option linter.unusedSectionVars false
set_option maxRecDepth 4000

/-!
Verification of the Lotsawa Earley recognizer against its design
specification.  The repository ships only the C interface header
(`Sources/LotsawaC/include/LotsawaC.h`); the recognizer itself is therefore
modelled from the specification document, as noted on each definition.
-/

namespace Lotsawa

/-- Modelled from the spec: a symbol is a "signed integer id" (the data-model
table).  The implementation behind the header is missing from the sources, so
symbols are modelled as unbounded integers; the concrete `int16_t` width of
`LotsawaSymbol` in the header is treated separately by the width predicates
below. -/
abbrev Sym : Type := Int

/-- Modelled from the spec: one production, mapping one left-hand symbol to an
ordered sequence of right-hand symbols. -/
structure Rule where
  lhs : Sym
  rhs : List Sym
deriving DecidableEq

/-- Modelled from the spec: a grammar is an ordered sequence of rules together
with a start symbol (the argument of `lotsawa_grammar_create`, which the spec
calls `startSymbolCapacityHint`). -/
structure Grammar where
  start : Sym
  rules : List Rule
deriving DecidableEq

/-- One rewriting step: some occurrence of the left-hand side of a grammar rule
is replaced by that rule's right-hand side. -/
def Produces (g : Grammar) (u v : List Sym) : Prop :=
  ∃ r ∈ g.rules, ∃ p q : List Sym, u = p ++ [r.lhs] ++ q ∧ v = p ++ r.rhs ++ q

/-- Derivation in zero or more rewriting steps. -/
def Derives (g : Grammar) : List Sym → List Sym → Prop :=
  Relation.ReflTransGen (Produces g)

/-- Derivation with an explicit step count, used for strong induction. -/
inductive DerivN (g : Grammar) : Nat → List Sym → List Sym → Prop where
  | refl (u : List Sym) : DerivN g 0 u u
  | head {u v x : List Sym} {n : Nat} (hp : Produces g u v) (hd : DerivN g n v x) :
      DerivN g (n + 1) u x

theorem derivN_tail {g : Grammar} {n : Nat} {u v x : List Sym}
    (h : DerivN g n u v) (hp : Produces g v x) : DerivN g (n + 1) u x := by
  induction h with
  | refl u => exact .head hp (.refl _)
  | head hp1 _ ih => exact .head hp1 (ih hp)

theorem derives_iff_derivN {g : Grammar} {u v : List Sym} :
    Derives g u v ↔ ∃ n, DerivN g n u v := by
  constructor
  · intro h
    induction h with
    | refl => exact ⟨0, .refl u⟩
    | tail _ hp ih =>
      obtain ⟨n, hn⟩ := ih
      exact ⟨n + 1, derivN_tail hn hp⟩
  · rintro ⟨n, h⟩
    induction h with
    | refl u => exact Relation.ReflTransGen.refl
    | head hp _ ih => exact Relation.ReflTransGen.head hp ih

theorem produces_single {g : Grammar} {r : Rule} (hr : r ∈ g.rules) :
    Produces g [r.lhs] r.rhs :=
  ⟨r, hr, [], [], by simp, by simp⟩

theorem produces_append_right {g : Grammar} {u v : List Sym} (h : Produces g u v)
    (x : List Sym) : Produces g (u ++ x) (v ++ x) := by
  obtain ⟨r, hr, p, q, hu, hv⟩ := h
  exact ⟨r, hr, p, q ++ x, by simp [hu], by simp [hv]⟩

theorem produces_append_left {g : Grammar} {u v : List Sym} (h : Produces g u v)
    (x : List Sym) : Produces g (x ++ u) (x ++ v) := by
  obtain ⟨r, hr, p, q, hu, hv⟩ := h
  exact ⟨r, hr, x ++ p, q, by simp [hu], by simp [hv]⟩

theorem derives_append_right {g : Grammar} {u v : List Sym} (h : Derives g u v)
    (x : List Sym) : Derives g (u ++ x) (v ++ x) := by
  induction h with
  | refl => exact .refl
  | tail _ hp ih => exact .tail ih (produces_append_right hp x)

theorem derives_append_left {g : Grammar} {u v : List Sym} (h : Derives g u v)
    (x : List Sym) : Derives g (x ++ u) (x ++ v) := by
  induction h with
  | refl => exact .refl
  | tail _ hp ih => exact .tail ih (produces_append_left hp x)

theorem derives_append_congr {g : Grammar} {u₁ v₁ u₂ v₂ : List Sym}
    (h₁ : Derives g u₁ v₁) (h₂ : Derives g u₂ v₂) :
    Derives g (u₁ ++ u₂) (v₁ ++ v₂) :=
  Relation.ReflTransGen.trans (derives_append_right h₁ u₂) (derives_append_left h₂ v₁)

theorem produces_not_nil {g : Grammar} {v : List Sym} (h : Produces g [] v) : False := by
  obtain ⟨r, _, p, q, hu, _⟩ := h
  simp at hu

theorem produces_cons {g : Grammar} {u v : List Sym} (a : Sym) (h : Produces g u v) :
    Produces g (a :: u) (a :: v) := by
  obtain ⟨r, hr, p, q, hu, hv⟩ := h
  exact ⟨r, hr, a :: p, q, by simp [hu], by simp [hv]⟩

theorem produces_append_split {g : Grammar} :
    ∀ {u v y : List Sym}, Produces g (u ++ v) y →
      (∃ u2, Produces g u u2 ∧ y = u2 ++ v) ∨ (∃ v2, Produces g v v2 ∧ y = u ++ v2) := by
  intro u
  induction u with
  | nil =>
    intro v y h
    exact Or.inr ⟨y, by simpa using h, by simp⟩
  | cons a u ih =>
    intro v y h
    obtain ⟨r, hr, p, q, hu, hv⟩ := h
    match p, hu with
    | [], hu =>
      simp at hu
      obtain ⟨ha, hq⟩ := hu
      refine Or.inl ⟨r.rhs ++ u, ⟨r, hr, [], u, by simp [ha], by simp⟩, ?_⟩
      simp [hv, hq]
    | b :: p, hu =>
      simp at hu
      obtain ⟨hb, hu⟩ := hu
      have h2 : Produces g (u ++ v) (p ++ r.rhs ++ q) := ⟨r, hr, p, q, by simp [hu], by simp⟩
      rcases ih h2 with ⟨u2, hp2, hy2⟩ | ⟨v2, hp2, hy2⟩
      · refine Or.inl ⟨a :: u2, produces_cons a hp2, ?_⟩
        have : y = a :: (p ++ r.rhs ++ q) := by simp [hv, hb]
        simp [this, hy2]
      · refine Or.inr ⟨v2, hp2, ?_⟩
        have : y = a :: (p ++ r.rhs ++ q) := by simp [hv, hb]
        simp [this, hy2]

theorem derivN_split {g : Grammar} :
    ∀ {n : Nat} {s x : List Sym}, DerivN g n s x → ∀ {u v : List Sym}, s = u ++ v →
      ∃ n₁ n₂ x₁ x₂, n = n₁ + n₂ ∧ x = x₁ ++ x₂ ∧ DerivN g n₁ u x₁ ∧ DerivN g n₂ v x₂ := by
  intro n s x h
  induction h with
  | refl w =>
    intro u v hs
    exact ⟨0, 0, u, v, rfl, hs, .refl u, .refl v⟩
  | head hp hd ih =>
    intro u v hs
    subst hs
    rcases produces_append_split hp with ⟨u2, hpu, hy⟩ | ⟨v2, hpv, hy⟩
    · subst hy
      obtain ⟨n₁, n₂, x₁, x₂, hn, hx, h₁, h₂⟩ := ih rfl
      exact ⟨n₁ + 1, n₂, x₁, x₂, by omega, hx, .head hpu h₁, h₂⟩
    · subst hy
      obtain ⟨n₁, n₂, x₁, x₂, hn, hx, h₁, h₂⟩ := ih rfl
      exact ⟨n₁, n₂ + 1, x₁, x₂, by omega, hx, h₁, .head hpv h₂⟩

theorem derivN_zero_eq {g : Grammar} {u v : List Sym} (h : DerivN g 0 u v) : u = v := by
  cases h; rfl

theorem derivN_nil_eq {g : Grammar} : ∀ {n : Nat} {x : List Sym}, DerivN g n [] x → x = [] := by
  have key : ∀ {n : Nat} {s x : List Sym}, DerivN g n s x → s = [] → x = [] := by
    intro n s x h
    induction h with
    | refl u => exact fun h => h
    | head hp _ _ =>
      intro hs
      subst hs
      exact absurd hp produces_not_nil
  intro n x h
  exact key h rfl

theorem derivN_single_head {g : Grammar} {n : Nat} {σ : Sym} {x : List Sym}
    (h : DerivN g (n + 1) [σ] x) :
    ∃ r ∈ g.rules, r.lhs = σ ∧ DerivN g n r.rhs x := by
  cases h with
  | head hp hd =>
    obtain ⟨r, hr, p, q, hu, hv⟩ := hp
    have hlen := congrArg List.length hu
    simp at hlen
    have hp0 : p = [] := List.length_eq_zero.mp (by omega)
    have hq0 : q = [] := List.length_eq_zero.mp (by omega)
    subst hp0
    subst hq0
    simp at hu hv
    exact ⟨r, hr, hu.symm, hv ▸ hd⟩

theorem derives_of_all_nil {g : Grammar} :
    ∀ {u : List Sym}, (∀ s ∈ u, Derives g [s] []) → Derives g u [] := by
  intro u
  induction u with
  | nil => intro _; exact .refl
  | cons a u ih =>
    intro h
    have h1 : Derives g [a] [] := h a (by simp)
    have h2 : Derives g u [] := ih fun s hs => h s (by simp [hs])
    have := derives_append_congr h1 h2
    simpa using this

theorem derivN_mem_nil {g : Grammar} :
    ∀ {u : List Sym} {n : Nat}, DerivN g n u [] → ∀ s ∈ u, ∃ m ≤ n, DerivN g m [s] [] := by
  intro u
  induction u with
  | nil => intro n _ s hs; simp at hs
  | cons a u ih =>
    intro n h s hs
    have hsplit := derivN_split h (u := [a]) (v := u) (by simp)
    obtain ⟨n₁, n₂, x₁, x₂, hn, hx, h₁, h₂⟩ := hsplit
    obtain ⟨hx1, hx2⟩ := List.append_eq_nil.mp hx.symm
    rcases List.mem_cons.mp hs with hs1 | hs1
    · exact ⟨n₁, by omega, hs1 ▸ hx1 ▸ h₁⟩
    · obtain ⟨m, hm, hd⟩ := ih (hx2 ▸ h₂) s hs1
      exact ⟨m, by omega, hd⟩

section GenericFix

variable {α : Type} [DecidableEq α]

/-- Insert an element at the end of a list unless it is already present.  This
is the deduplicating, additive-growth insertion the spec requires of the item
sets ("item set is deduplicated; grows only additively within an earleme"). -/
def insertOne (s : List α) (x : α) : List α := if x ∈ s then s else s ++ [x]

/-- Insert many elements, deduplicating. -/
def insertMany (s : List α) (xs : List α) : List α := xs.foldl insertOne s

theorem isPrefix_insertOne (s : List α) (x : α) : s <+: insertOne s x := by
  unfold insertOne
  split
  · exact List.prefix_refl s
  · exact ⟨[x], rfl⟩

theorem mem_insertOne {s : List α} {x a : α} : a ∈ insertOne s x ↔ a ∈ s ∨ a = x := by
  unfold insertOne
  split <;> rename_i h
  · constructor
    · exact fun ha => Or.inl ha
    · rintro (ha | rfl)
      · exact ha
      · exact h
  · simp

theorem nodup_insertOne {s : List α} (hs : s.Nodup) (x : α) : (insertOne s x).Nodup := by
  unfold insertOne
  split <;> rename_i h
  · exact hs
  · simpa [List.nodup_append, hs] using h

theorem isPrefix_insertMany (s : List α) (xs : List α) : s <+: insertMany s xs := by
  induction xs generalizing s with
  | nil => exact List.prefix_refl s
  | cons a xs ih =>
    exact (isPrefix_insertOne s a).trans (ih (insertOne s a))

theorem mem_insertMany {s xs : List α} {a : α} :
    a ∈ insertMany s xs ↔ a ∈ s ∨ a ∈ xs := by
  induction xs generalizing s with
  | nil => simp [insertMany]
  | cons b xs ih =>
    constructor
    · intro h
      rcases (ih (s := insertOne s b)).mp h with h1 | h1
      · rcases mem_insertOne.mp h1 with h2 | h2
        · exact Or.inl h2
        · exact Or.inr (by simp [h2])
      · exact Or.inr (by simp [h1])
    · intro h
      apply (ih (s := insertOne s b)).mpr
      rcases h with h1 | h1
      · exact Or.inl (mem_insertOne.mpr (Or.inl h1))
      · rcases (List.mem_cons.mp h1) with h2 | h2
        · exact Or.inl (mem_insertOne.mpr (Or.inr h2))
        · exact Or.inr h2

theorem nodup_insertMany {s xs : List α} (hs : s.Nodup) : (insertMany s xs).Nodup := by
  induction xs generalizing s with
  | nil => exact hs
  | cons b xs ih => exact ih (nodup_insertOne hs b)

/-- Iterate a set-transformer a fixed number of times.  The recognizer runs its
predictor/completer loop "until no new items are added in a pass"; with enough
fuel the iteration reaches that fixed point. -/
def iterFix (f : List α → List α) : Nat → List α → List α
  | 0, s => s
  | n + 1, s => iterFix f n (f s)

theorem iterFix_of_fixed {f : List α → List α} {s : List α} (h : f s = s) :
    ∀ n, iterFix f n s = s := by
  intro n
  induction n with
  | zero => rfl
  | succ n ih => simp [iterFix, h, ih]

theorem isPrefix_iterFix {f : List α → List α} (hf : ∀ t, t <+: f t) (n : Nat) (s : List α) :
    s <+: iterFix f n s := by
  induction n generalizing s with
  | zero => exact List.prefix_refl s
  | succ n ih => exact (hf s).trans (ih (f s))

theorem pred_iterFix {f : List α → List α} {P : α → Prop}
    (hf : ∀ t, (∀ x ∈ t, P x) → ∀ x ∈ f t, P x) :
    ∀ (n : Nat) (s : List α), (∀ x ∈ s, P x) → ∀ x ∈ iterFix f n s, P x := by
  intro n
  induction n with
  | zero => intro s hs; exact hs
  | succ n ih => intro s hs; exact ih (f s) (hf s hs)

theorem iterFix_fixed {f : List α → List α} {U : List α}
    (hpre : ∀ t, t <+: f t)
    (hstep : ∀ t, t.Nodup → t ⊆ U → (f t).Nodup ∧ f t ⊆ U) :
    ∀ (n : Nat) (s : List α), s.Nodup → s ⊆ U → U.length + 1 ≤ n + s.length →
      f (iterFix f n s) = iterFix f n s := by
  intro n
  induction n with
  | zero =>
    intro s hnd hsub hlen
    exfalso
    have : s.length ≤ U.length := (List.subperm_of_subset hnd hsub).length_le
    omega
  | succ n ih =>
    intro s hnd hsub hlen
    by_cases hfs : f s = s
    · rw [show iterFix f (n + 1) s = iterFix f n (f s) from rfl, hfs, iterFix_of_fixed hfs]
      exact hfs
    · have hpfx := hpre s
      have hlt : s.length < (f s).length := by
        rcases Nat.lt_or_ge s.length (f s).length with h | h
        · exact h
        · exact absurd (List.IsPrefix.eq_of_length_le hpfx h).symm hfs
      obtain ⟨hnd2, hsub2⟩ := hstep s hnd hsub
      exact ih (f s) hnd2 hsub2 (by omega)

theorem subset_of_isPrefix {s t : List α} (h : s <+: t) : s ⊆ t :=
  h.sublist.subset

theorem isPrefix_foldl {β : Type} (f : List α → β → List α) (hf : ∀ s b, s <+: f s b) :
    ∀ (l : List β) (s : List α), s <+: l.foldl f s := by
  intro l
  induction l with
  | nil => intro s; exact List.prefix_refl s
  | cons b l ih => intro s; exact (hf s b).trans (ih (f s b))

theorem pred_foldl {β : Type} (f : List α → β → List α) (P : α → Prop) :
    ∀ (l : List β) (s : List α), (∀ x ∈ s, P x) →
      (∀ (t : List α) (b : β), b ∈ l → (∀ x ∈ t, P x) → ∀ x ∈ f t b, P x) →
      ∀ x ∈ l.foldl f s, P x := by
  intro l
  induction l with
  | nil => intro s hs _; exact hs
  | cons b l ih =>
    intro s hs hstep
    exact ih (f s b) (hstep s b (by simp) hs) fun t c hc => hstep t c (by simp [hc])

theorem nodup_foldl {β : Type} (f : List α → β → List α)
    (hf : ∀ s b, s.Nodup → (f s b).Nodup) :
    ∀ (l : List β) (s : List α), s.Nodup → (l.foldl f s).Nodup := by
  intro l
  induction l with
  | nil => intro s hs; exact hs
  | cons b l ih => intro s hs; exact ih (f s b) (hf s b hs)

end GenericFix

/-! ### Nullability (preprocessor) -/

/-- Modelled from the spec: one pass of the nullable-closure computation over
the rule list — "a nonterminal is nullable if some rule with that LHS has an
RHS in which every symbol is nullable (including the empty RHS case)".  The
implementation behind `lotsawa_preprocessed_grammar_create` is missing from the
sources. -/
def nullableStep (g : Grammar) (ns : List Sym) : List Sym :=
  g.rules.foldl
    (fun acc r => if r.rhs.all (fun s => decide (s ∈ acc)) then insertOne acc r.lhs else acc) ns

/-- Modelled from the spec: the nullable closure, "the least fixed point"
reached by "iterating rule derivability until no new nullable symbol is
found". -/
def nullables (g : Grammar) : List Sym :=
  iterFix (nullableStep g) (g.rules.length + 1) []

theorem isPrefix_nullableStep (g : Grammar) (ns : List Sym) : ns <+: nullableStep g ns := by
  unfold nullableStep
  apply isPrefix_foldl
  intro s r
  split
  · exact isPrefix_insertOne s r.lhs
  · exact List.prefix_refl s

theorem mem_lhs_nullableStep {g : Grammar} {r : Rule} :
    ∀ {ns : List Sym}, r ∈ g.rules → (∀ s ∈ r.rhs, s ∈ ns) → r.lhs ∈ nullableStep g ns := by
  unfold nullableStep
  generalize g.rules = l
  induction l with
  | nil => intro ns hr _; simp at hr
  | cons a l ih =>
    intro ns hr hsub
    rcases List.mem_cons.mp hr with hra | hra
    · subst hra
      have hcond : (r.rhs.all fun s => decide (s ∈ ns)) = true := by
        simp only [List.all_eq_true, decide_eq_true_eq]
        exact hsub
      simp only [List.foldl_cons, hcond, if_true]
      have h1 : r.lhs ∈ insertOne ns r.lhs := mem_insertOne.mpr (Or.inr rfl)
      have h2 := isPrefix_foldl
        (fun (s : List Sym) (b : Rule) =>
          if (b.rhs.all fun x => decide (x ∈ s)) then insertOne s b.lhs else s)
        (fun s b => by
          show s <+: if (b.rhs.all fun x => decide (x ∈ s)) = true then insertOne s b.lhs else s
          split
          · exact isPrefix_insertOne s b.lhs
          · exact List.prefix_refl s) l (insertOne ns r.lhs)
      exact subset_of_isPrefix h2 h1
    · simp only [List.foldl_cons]
      set acc1 := if (a.rhs.all fun s => decide (s ∈ ns)) then insertOne ns a.lhs else ns with hacc
      have hpre : ns <+: acc1 := by
        rw [hacc]
        split
        · exact isPrefix_insertOne ns a.lhs
        · exact List.prefix_refl ns
      exact ih hra fun s hs => subset_of_isPrefix hpre (hsub s hs)

theorem mem_nullableStep_cases {g : Grammar} {ns : List Sym} {x : Sym}
    (h : x ∈ nullableStep g ns) : x ∈ ns ∨ x ∈ g.rules.map Rule.lhs := by
  revert h
  unfold nullableStep
  generalize g.rules = l
  induction l generalizing ns with
  | nil => intro h; exact Or.inl h
  | cons a l ih =>
    intro h
    simp only [List.foldl_cons] at h
    rcases ih h with h1 | h1
    · split at h1
      · rcases mem_insertOne.mp h1 with h2 | h2
        · exact Or.inl h2
        · exact Or.inr (by simp [h2])
      · exact Or.inl h1
    · exact Or.inr (by simp at h1 ⊢; tauto)

theorem nodup_nullableStep {g : Grammar} {ns : List Sym} (h : ns.Nodup) :
    (nullableStep g ns).Nodup := by
  unfold nullableStep
  apply nodup_foldl _ _ _ _ h
  intro s r hs
  split
  · exact nodup_insertOne hs r.lhs
  · exact hs

theorem nullableStep_fixed (g : Grammar) : nullableStep g (nullables g) = nullables g := by
  unfold nullables
  apply iterFix_fixed (U := g.rules.map Rule.lhs)
  · exact isPrefix_nullableStep g
  · intro t hnd hsub
    refine ⟨nodup_nullableStep hnd, fun x hx => ?_⟩
    rcases mem_nullableStep_cases hx with h | h
    · exact hsub h
    · exact h
  · exact List.nodup_nil
  · simp
  · simp

theorem nullables_closed {g : Grammar} {r : Rule} (hr : r ∈ g.rules)
    (hsub : ∀ s ∈ r.rhs, s ∈ nullables g) : r.lhs ∈ nullables g := by
  rw [← nullableStep_fixed g]
  exact mem_lhs_nullableStep hr hsub

theorem nullables_least {g : Grammar} (P : Sym → Prop)
    (hP : ∀ r ∈ g.rules, (∀ s ∈ r.rhs, P s) → P r.lhs) :
    ∀ N ∈ nullables g, P N := by
  have hf : ∀ t, (∀ x ∈ t, P x) → ∀ x ∈ nullableStep g t, P x := by
    intro t ht x hx
    revert hx
    unfold nullableStep
    apply pred_foldl _ P _ _ ht
    intro u r hr hu x hx
    split at hx
    · rename_i hcond
      rcases mem_insertOne.mp hx with h | h
      · exact hu x h
      · subst h
        apply hP r hr
        intro s hs
        simp only [List.all_eq_true, decide_eq_true_eq] at hcond
        exact hu s (hcond s hs)
    · exact hu x hx
  intro N hN
  unfold nullables at hN
  exact pred_iterFix hf (g.rules.length + 1) [] (by simp) N hN

theorem nullables_sound {g : Grammar} : ∀ N ∈ nullables g, Derives g [N] [] := by
  apply nullables_least
  intro r hr hsub
  have h1 : Derives g r.rhs [] := derives_of_all_nil hsub
  exact Relation.ReflTransGen.head (produces_single hr) h1

theorem nullables_complete {g : Grammar} :
    ∀ (n : Nat) (N : Sym), DerivN g n [N] [] → N ∈ nullables g := by
  intro n
  induction n using Nat.strong_induction_on with
  | _ n ih =>
    intro N h
    match n, h with
    | 0, h => exact absurd (derivN_zero_eq h) (by simp)
    | n + 1, h =>
      obtain ⟨r, hr, hlhs, hd⟩ := derivN_single_head h
      apply hlhs ▸ nullables_closed hr
      intro s hs
      obtain ⟨m, hm, hds⟩ := derivN_mem_nil hd s hs
      exact ih m (by omega) s hds

/-- C3: the preprocessor's nullable closure marks a nonterminal as nullable iff
it can derive the empty sequence; the computed set is a fixed point of the
one-pass operator and is least among all rule-closed predicates. -/
theorem nullables_correct (g : Grammar) :
    (∀ N : Sym, N ∈ nullables g ↔ Derives g [N] []) ∧
    nullableStep g (nullables g) = nullables g ∧
    (∀ P : Sym → Prop, (∀ r ∈ g.rules, (∀ s ∈ r.rhs, P s) → P r.lhs) →
      ∀ N ∈ nullables g, P N) := by
  refine ⟨fun N => ⟨fun h => nullables_sound N h, fun h => ?_⟩, nullableStep_fixed g,
    nullables_least⟩
  obtain ⟨n, hn⟩ := derives_iff_derivN.mp h
  exact nullables_complete n N hn

/-! ### Input slices -/

/-- The segment of the input between earleme `i` and earleme `j`. -/
def slice (w : List Sym) (i j : Nat) : List Sym := (w.take j).drop i

theorem slice_self (w : List Sym) (i : Nat) : slice w i i = [] := by
  apply List.drop_eq_nil_of_le
  simp [List.length_take]

theorem length_slice {w : List Sym} {i j : Nat} (hij : i ≤ j) (hj : j ≤ w.length) :
    (slice w i j).length = j - i := by
  simp [slice, List.length_take]
  omega

theorem slice_full (w : List Sym) : slice w 0 w.length = w := by
  simp [slice]

theorem slice_append {w : List Sym} {i k j : Nat} (hik : i ≤ k) (hkj : k ≤ j)
    (hj : j ≤ w.length) : slice w i k ++ slice w k j = slice w i j := by
  unfold slice
  have h1 : w.take k = (w.take j).take k := by
    rw [List.take_take, Nat.min_eq_left hkj]
  have h2 : w.take j = (w.take j).take k ++ (w.take j).drop k := (List.take_append_drop _ _).symm
  calc (w.take k).drop i ++ (w.take j).drop k
      = ((w.take j).take k).drop i ++ (w.take j).drop k := by rw [← h1]
    _ = ((w.take j).take k ++ (w.take j).drop k).drop i := by
        rw [List.drop_append_of_le_length]
        simp [List.length_take]
        omega
    _ = (w.take j).drop i := by rw [← h2]

theorem slice_one {w : List Sym} {i : Nat} (h : i < w.length) :
    slice w i (i + 1) = [w.getD i 0] := by
  unfold slice
  rw [List.take_succ]
  have hg : w[i]? = some (w.getD i 0) := by
    rw [List.getElem?_eq_getElem h, List.getD_eq_getElem w 0 h]
  rw [hg]
  rw [List.drop_append_of_le_length (by simp [List.length_take]; omega)]
  have : (w.take i).drop i = [] := by
    apply List.drop_eq_nil_of_le
    simp [List.length_take]
  simp [this]

theorem slice_eq_nil_iff {w : List Sym} {i j : Nat} (hij : i ≤ j) (hj : j ≤ w.length) :
    slice w i j = [] ↔ i = j := by
  rw [← List.length_eq_zero, length_slice hij hj]
  omega

theorem slice_split_of_append {w : List Sym} {i j : Nat} {x₁ x₂ : List Sym}
    (hij : i ≤ j) (hj : j ≤ w.length) (h : slice w i j = x₁ ++ x₂) :
    i + x₁.length ≤ j ∧ x₁ = slice w i (i + x₁.length) ∧ x₂ = slice w (i + x₁.length) j := by
  have hlen : (slice w i j).length = j - i := length_slice hij hj
  have hlen2 : x₁.length + x₂.length = j - i := by
    rw [← hlen, h]; simp
  have hk : i + x₁.length ≤ j := by omega
  have happ := slice_append (i := i) (k := i + x₁.length) (j := j) (by omega) hk hj
  rw [← happ] at h
  have hl1 : (slice w i (i + x₁.length)).length = x₁.length := by
    rw [length_slice (by omega) (by omega)]; omega
  obtain ⟨h1, h2⟩ := List.append_inj h.symm hl1.symm
  exact ⟨hk, h1, h2⟩

/-! ### The Earley recognizer (reference model, without Leo memoization)

Modelled from the spec.  The implementation behind the `lotsawa_recognizer_*`
declarations of the header is missing from the sources; the recognizer is
modelled from spec section 4.3.  Leo-item memoization is omitted here — spec
section 8 designates exactly this recognizer ("a reference unoptimized Earley
recognizer without Leo items") as the yardstick for recognition correctness.
A Leo-enabled variant is modelled separately below. -/

/-- Modelled from the spec: an Earley item, "a (rule, dot position, origin)
triple denoting partial recognition of a production";
`rule` indexes the grammar's rule list. -/
structure Item where
  rule : Nat
  dot : Nat
  origin : Nat
deriving DecidableEq

/-- The symbol immediately after the dot, if any. -/
def postdot (g : Grammar) (it : Item) : Option Sym :=
  match g.rules[it.rule]? with
  | some ru => ru.rhs[it.dot]?
  | none => none

/-- Indices of all rules whose left-hand side is `σ` (the prediction index of
the preprocessed grammar, recomputed on demand). -/
def rulesFor (g : Grammar) (σ : Sym) : List Nat :=
  (List.range g.rules.length).filter fun r =>
    match g.rules[r]? with
    | some ru => decide (ru.lhs = σ)
    | none => false

/-- Length of the longest right-hand side; bounds the dot position of any
well-formed item. -/
def maxRhsLen (g : Grammar) : Nat := (g.rules.map (fun r => r.rhs.length)).foldr max 0

/-- Modelled from the spec: the items derived from one item by one application
of the predictor ("for every item with dot immediately before a nonterminal N,
add, for every rule with LHS = N, a new item at position 0 of that rule with
origin = the current earleme") or the completer ("for every item whose dot has
reached the end of its rule, find every item in the origin earleme expecting
that LHS symbol next, and advance it into the current earleme").  `prev` holds
the closed sets of earlier earlemes; an origin equal to the current earleme
`i` looks into the set `S` being built. -/
def derive1 (g : Grammar) (prev : List (List Item)) (i : Nat) (S : List Item)
    (it : Item) : List Item :=
  match g.rules[it.rule]? with
  | none => []
  | some ru =>
    match ru.rhs[it.dot]? with
    | some σ => (rulesFor g σ).map fun r => ⟨r, 0, i⟩
    | none =>
      if it.dot = ru.rhs.length then
        (prev.getD it.origin S).filterMap fun x =>
          if postdot g x = some ru.lhs then some ⟨x.rule, x.dot + 1, x.origin⟩ else none
      else []

/-- One pass of the predictor/completer loop: all derivable items are inserted
(with deduplication) into the set. -/
def closureStep (g : Grammar) (prev : List (List Item)) (i : Nat) (S : List Item) :
    List Item :=
  insertMany S (S.flatMap (derive1 g prev i S))

/-- All triples that can ever appear in the earleme-`i` set of a well-formed
chart: rule index below the rule count, dot bounded by the longest RHS,
origin at most `i`. -/
def chartUniv (g : Grammar) (i : Nat) : List Item :=
  (List.range g.rules.length).flatMap fun r =>
    (List.range (maxRhsLen g + 1)).flatMap fun d =>
      (List.range (i + 1)).map fun o => ⟨r, d, o⟩

/-- Modelled from the spec: the predictor/completer loop run "until no new
items or Leo items are added in a pass"; enough passes are taken to reach the
fixed point. -/
def closure (g : Grammar) (prev : List (List Item)) (i : Nat) (S : List Item) :
    List Item :=
  iterFix (closureStep g prev i) ((chartUniv g i).length + 1) S

/-- Modelled from the spec: the seed items of earleme 0 — "every rule whose
LHS is the start symbol, dot at position 0, origin 0". -/
def seeds (g : Grammar) : List Item := (rulesFor g g.start).map fun r => ⟨r, 0, 0⟩

/-- Modelled from the spec: the recognizer "owns a chart (sequence of Earley
sets, one per earleme)" plus the set of scanned items for the earleme being
built, and the current earleme counter. -/
structure RecState where
  chart : List (List Item)
  pending : List Item
  earleme : Nat
deriving DecidableEq

/-- Modelled from the spec: `lotsawa_recognizer_initialize` "seeds earleme 0
with predicted items derived from the grammar's start symbol ... then runs the
predictor/completer closure until it stabilizes, before any discovery occurs".
(The C name ends in a word this development cannot use as an identifier.) -/
def recInit (g : Grammar) : RecState := ⟨[closure g [] 0 (seeds g)], [], 0⟩

/-- The set of the current (most recently closed) earleme. -/
def lastSet (st : RecState) : List Item := st.chart.getLastD []

/-- The scan step: all items of the closed current earleme whose next expected
symbol is `s`, advanced by one position with the same origin. -/
def scanItems (g : Grammar) (E : List Item) (s : Sym) : List Item :=
  E.filterMap fun it =>
    if postdot g it = some s then some ⟨it.rule, it.dot + 1, it.origin⟩ else none

/-- Modelled from the spec: `lotsawa_recognizer_discover` "scans the current
open earleme's items for those whose next expected RHS symbol equals the
supplied symbol; for each match, creates a new item in the next earleme with
the dot advanced by one position and the same origin".  A position argument
that does not match the current earleme counter is a caller contract
violation; the model leaves the state unchanged in that case. -/
def discover (g : Grammar) (st : RecState) (s : Sym) (p : Nat) : RecState :=
  if p = st.earleme then
    { st with pending := insertMany st.pending (scanItems g (lastSet st) s) }
  else st

/-- Modelled from the spec: `lotsawa_recognizer_finish_earleme` "closes the
earleme currently being built, running to fixpoint the predictor and completer
operations over it", returns whether the closed earleme is "alive" (contains
at least one item), advances the earleme counter and opens a fresh earleme. -/
def finishEarleme (g : Grammar) (st : RecState) : RecState × Bool :=
  let E := closure g st.chart st.chart.length st.pending
  (⟨st.chart ++ [E], [], st.earleme + 1⟩, decide (E ≠ []))

/-- Whether an item is fully matched (dot at the end of its rule's RHS). -/
def isCompleteItem (g : Grammar) (it : Item) : Bool :=
  match g.rules[it.rule]? with
  | some ru => decide (it.dot = ru.rhs.length)
  | none => false

/-- The left-hand symbol of the rule an item instantiates, if the item's rule
index is valid. -/
def itemLhs (g : Grammar) (it : Item) : Option Sym := (g.rules[it.rule]?).map Rule.lhs

/-- Modelled from the spec: `lotsawa_recognizer_has_complete_parse` is "true
iff the current (closed) earleme contains an item that is (a) fully matched
(dot at end of RHS), (b) has LHS equal to the grammar's start symbol, and
(c) has origin = 0". -/
def hasCompleteParse (g : Grammar) (st : RecState) : Bool :=
  (lastSet st).any fun it =>
    isCompleteItem g it && decide (itemLhs g it = some g.start) && decide (it.origin = 0)

/-- One recognizer call after initialization: a `discover` or a
`finish_earleme`. -/
inductive Op where
  | disc (s : Sym) (p : Nat)
  | fin
deriving DecidableEq

/-- Apply one call to the recognizer state. -/
def applyOp (g : Grammar) (st : RecState) : Op → RecState
  | .disc s p => discover g st s p
  | .fin => (finishEarleme g st).1

/-- Drive the recognizer through a sequence of calls. -/
def runOps (g : Grammar) (st : RecState) (ops : List Op) : RecState :=
  ops.foldl (applyOp g) st

/-- Feed a whole input: one `discover` per symbol, at the current earleme
counter, each followed by `finish_earleme`. -/
def run (g : Grammar) (w : List Sym) : RecState :=
  w.foldl (fun st s => (finishEarleme g (discover g st s st.earleme)).1) (recInit g)

/-- The set closing the next earleme, given the closed chart `C` and the
discovered symbol `s`. -/
def nextSet (g : Grammar) (C : List (List Item)) (s : Sym) : List Item :=
  closure g C C.length (insertMany [] (scanItems g (C.getLastD []) s))

/-- The chart grown from `C` by feeding the symbols of `w` in order. -/
def buildChart (g : Grammar) (C : List (List Item)) : List Sym → List (List Item)
  | [] => C
  | s :: rest => buildChart g (C ++ [nextSet g C s]) rest

/-- The chart after feeding the first `i` symbols of `w`. -/
def chartI (g : Grammar) (w : List Sym) (i : Nat) : List (List Item) :=
  buildChart g [closure g [] 0 (seeds g)] (w.take i)

/-- The Earley set of earleme `i` in the run over input `w`. -/
def Eset (g : Grammar) (w : List Sym) (i : Nat) : List Item := (chartI g w i).getLastD []

/-- Membership of a word in the language generated by the grammar's start
symbol: the word is derivable by applying at least one production starting
from the start symbol (equivalently, a start rule's RHS derives it).  Symbols
are untyped integer ids, so a "word" may mention any symbol; a symbol with no
rules can only be matched literally. -/
def LanguageMem (g : Grammar) (w : List Sym) : Prop :=
  ∃ r ∈ g.rules, r.lhs = g.start ∧ Derives g r.rhs w

/-! ### Basic facts about the model's components -/

theorem getLastD_eq_getElem? {α : Type} (l : List α) (d : α) (h : 0 < l.length) :
    l[l.length - 1]? = some (l.getLastD d) := by
  induction l with
  | nil => simp at h
  | cons a l ih =>
    cases l with
    | nil => simp
    | cons b l =>
      have h2 : 0 < (b :: l).length := by simp
      have := ih h2
      simpa using this

theorem mem_of_getElem?_rules {g : Grammar} {r : Nat} {ru : Rule}
    (h : g.rules[r]? = some ru) : ru ∈ g.rules := by
  rw [List.getElem?_eq_some] at h
  obtain ⟨hlt, hget⟩ := h
  exact hget ▸ List.getElem_mem hlt

theorem mem_rulesFor {g : Grammar} {σ : Sym} {r : Nat} :
    r ∈ rulesFor g σ ↔ ∃ ru, g.rules[r]? = some ru ∧ ru.lhs = σ := by
  unfold rulesFor
  rw [List.mem_filter, List.mem_range]
  constructor
  · rintro ⟨hlt, hcond⟩
    have hsome : g.rules[r]? = some g.rules[r] := List.getElem?_eq_getElem hlt
    rw [hsome] at hcond
    simp at hcond
    exact ⟨g.rules[r], hsome, hcond⟩
  · rintro ⟨ru, hsome, hlhs⟩
    have hlt : r < g.rules.length := by
      rw [List.getElem?_eq_some] at hsome
      exact hsome.1
    refine ⟨hlt, ?_⟩
    rw [hsome]
    simpa using hlhs

theorem le_foldr_max {l : List Nat} {x : Nat} (h : x ∈ l) : x ≤ l.foldr max 0 := by
  induction l with
  | nil => simp at h
  | cons a l ih =>
    simp only [List.foldr_cons]
    rcases List.mem_cons.mp h with h1 | h1
    · subst h1
      exact Nat.le_max_left _ _
    · exact Nat.le_trans (ih h1) (Nat.le_max_right _ _)

theorem le_maxRhsLen {g : Grammar} {r : Nat} {ru : Rule} (h : g.rules[r]? = some ru) :
    ru.rhs.length ≤ maxRhsLen g :=
  le_foldr_max (List.mem_map_of_mem _ (mem_of_getElem?_rules h))

theorem mem_chartUniv {g : Grammar} {i : Nat} {it : Item} :
    it ∈ chartUniv g i ↔
      it.rule < g.rules.length ∧ it.dot ≤ maxRhsLen g ∧ it.origin ≤ i := by
  unfold chartUniv
  cases it with
  | mk r d o =>
    simp only [List.mem_flatMap, List.mem_map, List.mem_range]
    constructor
    · rintro ⟨r2, hr2, d2, hd2, o2, ho2, heq⟩
      cases heq
      exact ⟨hr2, by omega, by omega⟩
    · rintro ⟨h1, h2, h3⟩
      exact ⟨r, h1, d, by omega, o, by omega, rfl⟩

theorem postdot_eq {g : Grammar} {it : Item} {ru : Rule}
    (h : g.rules[it.rule]? = some ru) : postdot g it = ru.rhs[it.dot]? := by
  unfold postdot
  rw [h]

theorem getD_default {α : Type} {l : List α} {n : Nat} (d : α) (h : l.length ≤ n) :
    l.getD n d = d := by
  rw [List.getD_eq_getElem?_getD, List.getElem?_eq_none h]
  rfl

theorem nodup_seeds (g : Grammar) : (seeds g).Nodup := by
  unfold seeds
  apply List.Nodup.map
  · intro a b hab
    simpa using congrArg Item.rule hab
  · exact List.Nodup.filter _ (List.nodup_range _)

/-! ### The chart built by `run` -/

theorem buildChart_append (g : Grammar) :
    ∀ (u v : List Sym) (C : List (List Item)),
      buildChart g C (u ++ v) = buildChart g (buildChart g C u) v := by
  intro u
  induction u with
  | nil => intro v C; rfl
  | cons s u ih => intro v C; simpa [buildChart] using ih v (C ++ [nextSet g C s])

theorem isPrefix_buildChart (g : Grammar) :
    ∀ (w : List Sym) (C : List (List Item)), C <+: buildChart g C w := by
  intro w
  induction w with
  | nil => intro C; exact List.prefix_refl C
  | cons s w ih =>
    intro C
    exact List.IsPrefix.trans ⟨[nextSet g C s], rfl⟩ (ih (C ++ [nextSet g C s]))

theorem length_buildChart (g : Grammar) :
    ∀ (w : List Sym) (C : List (List Item)),
      (buildChart g C w).length = C.length + w.length := by
  intro w
  induction w with
  | nil => intro C; simp [buildChart]
  | cons s w ih =>
    intro C
    rw [buildChart, ih]
    simp
    omega

theorem length_chartI {g : Grammar} {w : List Sym} {i : Nat} (h : i ≤ w.length) :
    (chartI g w i).length = i + 1 := by
  unfold chartI
  rw [length_buildChart]
  simp
  omega

theorem chartI_succ {g : Grammar} {w : List Sym} {i : Nat} (h : i < w.length) :
    chartI g w (i + 1) = chartI g w i ++ [nextSet g (chartI g w i) (w.getD i 0)] := by
  unfold chartI
  have htake : w.take (i + 1) = w.take i ++ [w.getD i 0] := by
    rw [List.take_succ]
    congr
    rw [List.getElem?_eq_getElem h, List.getD_eq_getElem w 0 h]
    rfl
  rw [htake, buildChart_append]
  rfl

theorem Eset_succ {g : Grammar} {w : List Sym} {i : Nat} (h : i < w.length) :
    Eset g w (i + 1) = nextSet g (chartI g w i) (w.getD i 0) := by
  unfold Eset
  rw [chartI_succ h]
  simp

theorem Eset_zero (g : Grammar) (w : List Sym) :
    Eset g w 0 = closure g [] 0 (seeds g) := by
  simp [Eset, chartI, buildChart]

theorem getElem?_chartI {g : Grammar} {w : List Sym} :
    ∀ {j : Nat}, j ≤ w.length → ∀ {i : Nat}, i ≤ j →
      (chartI g w j)[i]? = some (Eset g w i) := by
  intro j
  induction j with
  | zero =>
    intro hj i hi
    have hi0 : i = 0 := by omega
    subst hi0
    rw [Eset_zero]
    simp [chartI, buildChart]
  | succ j ih =>
    intro hj i hi
    rcases Nat.lt_or_ge i (j + 1) with hlt | hge
    · rw [chartI_succ (by omega)]
      rw [List.getElem?_append_left (by rw [length_chartI (by omega)]; omega)]
      exact ih (by omega) (by omega)
    · have hij : i = j + 1 := by omega
      subst hij
      rw [chartI_succ (by omega), Eset_succ (by omega)]
      have hlen : (chartI g w j).length = j + 1 := length_chartI (by omega)
      rw [← hlen]
      simp

theorem run_foldl_eq (g : Grammar) :
    ∀ (w : List Sym) (C : List (List Item)), 0 < C.length →
      (w.foldl (fun st s => (finishEarleme g (discover g st s st.earleme)).1)
          ⟨C, [], C.length - 1⟩) =
        ⟨buildChart g C w, [], C.length - 1 + w.length⟩ := by
  intro w
  induction w with
  | nil => intro C hC; simp [buildChart]
  | cons s w ih =>
    intro C hC
    have hstep :
        (finishEarleme g (discover g ⟨C, [], C.length - 1⟩ s (C.length - 1))).1 =
          ⟨C ++ [nextSet g C s], [], C.length⟩ := by
      unfold discover
      simp only [if_pos rfl]
      unfold finishEarleme
      simp only [lastSet]
      unfold nextSet
      simp
      omega
    simp only [List.foldl_cons]
    have : (discover g ⟨C, [], C.length - 1⟩ s
        (RecState.earleme ⟨C, [], C.length - 1⟩)) =
        discover g ⟨C, [], C.length - 1⟩ s (C.length - 1) := rfl
    rw [this, hstep]
    have h2 := ih (C ++ [nextSet g C s]) (by simp)
    have hlen : (C ++ [nextSet g C s]).length - 1 = C.length := by simp
    rw [hlen] at h2
    rw [h2]
    simp [buildChart]
    omega

theorem run_eq (g : Grammar) (w : List Sym) :
    run g w = ⟨chartI g w w.length, [], w.length⟩ := by
  unfold run recInit
  have h := run_foldl_eq g w [closure g [] 0 (seeds g)] (by simp)
  simp only [List.length_singleton] at h
  rw [show (1 : Nat) - 1 = 0 from rfl] at h
  rw [h]
  unfold chartI
  rw [List.take_length]
  simp

theorem lastSet_run (g : Grammar) (w : List Sym) :
    lastSet (run g w) = Eset g w w.length := by
  rw [run_eq]
  simp [lastSet, Eset, chartI, List.take_length]

/-! ### Soundness invariant of the chart -/

/-- The semantic invariant of an item living in earleme `i`: the item refers
to a real rule, its dot and origin are in range, and the part of the RHS
before the dot derives exactly the input segment from the origin to `i`. -/
def ItemInv (g : Grammar) (w : List Sym) (i : Nat) (it : Item) : Prop :=
  ∃ ru, g.rules[it.rule]? = some ru ∧ it.dot ≤ ru.rhs.length ∧ it.origin ≤ i ∧
    Derives g (ru.rhs.take it.dot) (slice w it.origin i)

theorem seeds_inv (g : Grammar) (w : List Sym) : ∀ it ∈ seeds g, ItemInv g w 0 it := by
  intro it hit
  unfold seeds at hit
  obtain ⟨r, hr, rfl⟩ := List.mem_map.mp hit
  obtain ⟨ru, hru, _⟩ := mem_rulesFor.mp hr
  exact ⟨ru, hru, by simp, by simp, by simp [slice_self]; exact .refl⟩

theorem scan_inv {g : Grammar} {w : List Sym} {i : Nat} (hi : i < w.length)
    (hE : ∀ it ∈ Eset g w i, ItemInv g w i it) :
    ∀ it ∈ scanItems g (Eset g w i) (w.getD i 0), ItemInv g w (i + 1) it := by
  intro it hit
  unfold scanItems at hit
  obtain ⟨y, hy, hyeq⟩ := List.mem_filterMap.mp hit
  split at hyeq
  · rename_i hpost
    cases hyeq
    obtain ⟨ru, hru, hdot, horig, hder⟩ := hE y hy
    rw [postdot_eq hru] at hpost
    have hdlt : y.dot < ru.rhs.length := by
      rw [List.getElem?_eq_some] at hpost
      exact hpost.1
    refine ⟨ru, hru, show y.dot + 1 ≤ ru.rhs.length by omega,
      show y.origin ≤ i + 1 by omega, ?_⟩
    show Derives g (ru.rhs.take (y.dot + 1)) (slice w y.origin (i + 1))
    have htake : ru.rhs.take (y.dot + 1) = ru.rhs.take y.dot ++ [w.getD i 0] := by
      rw [List.take_succ, hpost]
      rfl
    rw [htake, ← slice_append (i := y.origin) (k := i) (j := i + 1) horig (by omega)
      (by omega), ← slice_one hi]
    exact derives_append_congr hder .refl
  · cases hyeq

/-- Soundness of one closure pass: every derivable item satisfies the
invariant, provided the source items and all earlier chart sets do. -/
theorem derive1_inv {g : Grammar} {w : List Sym} {prev : List (List Item)} {i : Nat}
    (hplen : prev.length = i) (hi : i ≤ w.length)
    (hprev : ∀ o E, prev[o]? = some E → ∀ y ∈ E, ItemInv g w o y) :
    ∀ T : List Item, (∀ x ∈ T, ItemInv g w i x) →
      ∀ x ∈ T.flatMap (derive1 g prev i T), ItemInv g w i x := by
  intro T hT x hx
  obtain ⟨it, hit, hx⟩ := List.mem_flatMap.mp hx
  unfold derive1 at hx
  split at hx
  · simp at hx
  · rename_i ru hru
    split at hx
    · rename_i σ hσ
      obtain ⟨r, hr, rfl⟩ := List.mem_map.mp hx
      obtain ⟨ru2, hru2, _⟩ := mem_rulesFor.mp hr
      exact ⟨ru2, hru2, by simp, by simp, by simp [slice_self]; exact .refl⟩
    · split at hx
      · rename_i hpost hdot
        obtain ⟨y, hy, hyeq⟩ := List.mem_filterMap.mp hx
        split at hyeq
        · rename_i hypost
          cases hyeq
          -- the item `y` waiting for `ru.lhs` lives in the origin set of `it`
          have hyinv : ItemInv g w it.origin y := by
            rcases Nat.lt_or_ge it.origin prev.length with hlt | hge
            · have : prev[it.origin]? = some prev[it.origin] :=
                List.getElem?_eq_getElem hlt
              have hgd : prev.getD it.origin T = prev[it.origin] :=
                List.getD_eq_getElem prev T hlt
              rw [hgd] at hy
              exact hprev it.origin _ this y hy
            · have hgd : prev.getD it.origin T = T := getD_default T hge
              rw [hgd] at hy
              have hoi : it.origin = i := by
                obtain ⟨_, _, _, ho, _⟩ := hT it hit
                omega
              exact hoi ▸ hT y hy
          obtain ⟨ruY, hruY, hdotY, horigY, hderY⟩ := hyinv
          rw [postdot_eq hruY] at hypost
          have hdlt : y.dot < ruY.rhs.length := by
            rw [List.getElem?_eq_some] at hypost
            exact hypost.1
          obtain ⟨ruI, hruI, hdotI, horigI, hderI⟩ := hT it hit
          rw [hru] at hruI
          cases hruI
          refine ⟨ruY, hruY, show y.dot + 1 ≤ ruY.rhs.length by omega,
            show y.origin ≤ i by omega, ?_⟩
          show Derives g (ruY.rhs.take (y.dot + 1)) (slice w y.origin i)
          have htake : ruY.rhs.take (y.dot + 1) = ruY.rhs.take y.dot ++ [ru.lhs] := by
            rw [List.take_succ, hypost]
            rfl
          have hderC : Derives g [ru.lhs] (slice w it.origin i) := by
            have h1 : Produces g [ru.lhs] ru.rhs := produces_single (mem_of_getElem?_rules hru)
            have h2 : Derives g ru.rhs (slice w it.origin i) := by
              have : ru.rhs.take it.dot = ru.rhs := by
                rw [hdot, List.take_length]
              rw [← this]
              exact hderI
            exact Relation.ReflTransGen.head h1 h2
          rw [htake, ← slice_append (i := y.origin) (k := it.origin) (j := i) horigY
            horigI hi]
          exact derives_append_congr hderY hderC
        · cases hyeq
      · simp at hx

theorem closure_inv {g : Grammar} {w : List Sym} {prev : List (List Item)} {i : Nat}
    {S : List Item} (hplen : prev.length = i) (hi : i ≤ w.length)
    (hprev : ∀ o E, prev[o]? = some E → ∀ y ∈ E, ItemInv g w o y)
    (hS : ∀ x ∈ S, ItemInv g w i x) :
    ∀ x ∈ closure g prev i S, ItemInv g w i x := by
  unfold closure
  apply pred_iterFix _ _ _ hS
  intro t ht x hx
  unfold closureStep at hx
  rcases mem_insertMany.mp hx with h | h
  · exact ht x h
  · exact derive1_inv hplen hi hprev t ht x h

theorem nodup_closure {g : Grammar} {prev : List (List Item)} {i : Nat} {S : List Item}
    (hS : S.Nodup) : (closure g prev i S).Nodup := by
  unfold closure
  generalize (chartUniv g i).length + 1 = n
  induction n generalizing S with
  | zero => exact hS
  | succ n ih => exact ih (nodup_insertMany hS)

/-- Every set of the chart satisfies the soundness invariant. -/
theorem chartI_inv {g : Grammar} {w : List Sym} :
    ∀ {i : Nat}, i ≤ w.length → ∀ o E, (chartI g w i)[o]? = some E →
      ∀ y ∈ E, ItemInv g w o y := by
  intro i
  induction i with
  | zero =>
    intro _ o E hE
    have ho : o = 0 := by
      by_contra hno
      have hlen : (chartI g w 0).length = 1 := length_chartI (by omega)
      rw [List.getElem?_eq_none (by omega)] at hE
      cases hE
    subst ho
    rw [getElem?_chartI (by omega) (by omega)] at hE
    cases hE
    rw [Eset_zero]
    exact closure_inv rfl (by omega) (by intro o E h; simp at h) (seeds_inv g w)
  | succ i ih =>
    intro hi o E hE
    have hlen : (chartI g w (i + 1)).length = i + 2 := length_chartI hi
    have holt : o < i + 2 := by
      by_contra hno
      rw [List.getElem?_eq_none (by omega)] at hE
      cases hE
    rcases Nat.lt_or_ge o (i + 1) with hlt | hge
    · rw [chartI_succ (by omega)] at hE
      rw [List.getElem?_append_left (by rw [length_chartI (by omega)]; omega)] at hE
      exact ih (by omega) o E hE
    · have ho : o = i + 1 := by omega
      subst ho
      rw [getElem?_chartI (by omega) (by omega)] at hE
      cases hE
      rw [Eset_succ (by omega)]
      unfold nextSet
      have hplen : (chartI g w i).length = i + 1 := length_chartI (by omega)
      rw [hplen]
      apply closure_inv hplen (by omega)
      · intro o E hE2 y hy
        have ho2 : o < i + 1 := by
          by_contra hno
          rw [List.getElem?_eq_none (by omega)] at hE2
          cases hE2
        exact ih (by omega) o E hE2 y hy
      · intro x hx
        rcases mem_insertMany.mp hx with h | h
        · simp at h
        · have hlast : (chartI g w i).getLastD [] = Eset g w i := rfl
          rw [hlast] at h
          exact scan_inv (by omega) (fun y hy => by
            have := getElem?_chartI (g := g) (w := w) (j := i) (by omega) (le_refl i)
            exact ih (by omega) i _ this y hy) x h

theorem Eset_inv {g : Grammar} {w : List Sym} {i : Nat} (hi : i ≤ w.length) :
    ∀ y ∈ Eset g w i, ItemInv g w i y :=
  chartI_inv hi i _ (getElem?_chartI hi (le_refl i))

/-! ### Closedness of the computed Earley sets -/

theorem postdot_some {g : Grammar} {y : Item} {σ : Sym} (h : postdot g y = some σ) :
    ∃ ru, g.rules[y.rule]? = some ru ∧ ru.rhs[y.dot]? = some σ := by
  unfold postdot at h
  split at h
  · rename_i ru hru
    exact ⟨ru, hru, h⟩
  · cases h

theorem itemInv_mem_univ {g : Grammar} {w : List Sym} {i : Nat} {it : Item}
    (h : ItemInv g w i it) : it ∈ chartUniv g i := by
  obtain ⟨ru, hru, hdot, horig, _⟩ := h
  have hlt : it.rule < g.rules.length := by
    rw [List.getElem?_eq_some] at hru
    exact hru.1
  exact mem_chartUniv.mpr ⟨hlt, Nat.le_trans hdot (le_maxRhsLen hru), horig⟩

theorem subset_closure {g : Grammar} {prev : List (List Item)} {i : Nat} {S : List Item} :
    S ⊆ closure g prev i S :=
  subset_of_isPrefix (isPrefix_iterFix (fun t => isPrefix_insertMany t _) _ _)

theorem closureStep_univ {g : Grammar} {w : List Sym} {prev : List (List Item)} {i : Nat}
    (hplen : prev.length = i)
    (hprev : ∀ o E, prev[o]? = some E → ∀ y ∈ E, ItemInv g w o y) :
    ∀ t, t ⊆ chartUniv g i → closureStep g prev i t ⊆ chartUniv g i := by
  intro t ht x hx
  rcases mem_insertMany.mp hx with h | h
  · exact ht h
  · obtain ⟨it, hit, hx⟩ := List.mem_flatMap.mp h
    unfold derive1 at hx
    split at hx
    · simp at hx
    · rename_i ru hru
      split at hx
      · obtain ⟨r, hr, rfl⟩ := List.mem_map.mp hx
        obtain ⟨ru2, hru2, _⟩ := mem_rulesFor.mp hr
        have hlt : r < g.rules.length := by
          rw [List.getElem?_eq_some] at hru2
          exact hru2.1
        exact mem_chartUniv.mpr ⟨hlt, by simp, by simp⟩
      · split at hx
        · obtain ⟨y, hy, hyeq⟩ := List.mem_filterMap.mp hx
          split at hyeq
          · rename_i hypost
            cases hyeq
            obtain ⟨ruY, hruY, hydot⟩ := postdot_some hypost
            have hylt : y.rule < g.rules.length := by
              rw [List.getElem?_eq_some] at hruY
              exact hruY.1
            have hydlt : y.dot < ruY.rhs.length := by
              rw [List.getElem?_eq_some] at hydot
              exact hydot.1
            have hyorig : y.origin ≤ i := by
              rcases Nat.lt_or_ge it.origin prev.length with hlt2 | hge2
              · have hgd : prev.getD it.origin t = prev[it.origin] :=
                  List.getD_eq_getElem prev t hlt2
                rw [hgd] at hy
                obtain ⟨_, _, _, ho, _⟩ := hprev it.origin _ (List.getElem?_eq_getElem hlt2) y hy
                omega
              · rw [getD_default t hge2] at hy
                exact (mem_chartUniv.mp (ht hy)).2.2
            exact mem_chartUniv.mpr
              ⟨hylt, show y.dot + 1 ≤ maxRhsLen g from
                Nat.le_trans hydlt (le_maxRhsLen hruY), hyorig⟩
          · cases hyeq
        · simp at hx

theorem closure_fixed {g : Grammar} {w : List Sym} {prev : List (List Item)} {i : Nat}
    {S : List Item} (hplen : prev.length = i)
    (hprev : ∀ o E, prev[o]? = some E → ∀ y ∈ E, ItemInv g w o y)
    (hS : ∀ x ∈ S, ItemInv g w i x) (hnd : S.Nodup) :
    closureStep g prev i (closure g prev i S) = closure g prev i S := by
  unfold closure
  apply iterFix_fixed (U := chartUniv g i)
  · intro t
    exact isPrefix_insertMany t _
  · intro t hndt hsubt
    exact ⟨nodup_insertMany hndt, closureStep_univ hplen hprev t hsubt⟩
  · exact hnd
  · intro x hx
    exact itemInv_mem_univ (hS x hx)
  · omega

theorem closure_closed {g : Grammar} {w : List Sym} {prev : List (List Item)} {i : Nat}
    {S : List Item} (hplen : prev.length = i)
    (hprev : ∀ o E, prev[o]? = some E → ∀ y ∈ E, ItemInv g w o y)
    (hS : ∀ x ∈ S, ItemInv g w i x) (hnd : S.Nodup) :
    ∀ it ∈ closure g prev i S, ∀ x ∈ derive1 g prev i (closure g prev i S) it,
      x ∈ closure g prev i S := by
  intro it hit x hx
  have hmem : x ∈ closureStep g prev i (closure g prev i S) :=
    mem_insertMany.mpr (Or.inr (List.mem_flatMap.mpr ⟨it, hit, hx⟩))
  rw [closure_fixed hplen hprev hS hnd] at hmem
  exact hmem

/-- Every computed Earley set arises as a closure over a chart of the earlier
sets, with a well-formed start set. -/
theorem Eset_spec {g : Grammar} {w : List Sym} (i : Nat) (hi : i ≤ w.length) :
    ∃ prev S, Eset g w i = closure g prev i S ∧ prev.length = i ∧
      (∀ o, o < i → prev[o]? = some (Eset g w o)) ∧
      (∀ x ∈ S, ItemInv g w i x) ∧ S.Nodup := by
  cases i with
  | zero =>
    exact ⟨[], seeds g, Eset_zero g w, rfl, by omega, seeds_inv g w, nodup_seeds g⟩
  | succ i =>
    refine ⟨chartI g w i, insertMany [] (scanItems g (Eset g w i) (w.getD i 0)),
      ?_, length_chartI (by omega), ?_, ?_, nodup_insertMany List.nodup_nil⟩
    · rw [Eset_succ (by omega)]
      unfold nextSet
      rw [length_chartI (by omega)]
      rfl
    · intro o ho
      exact getElem?_chartI (by omega) (by omega)
    · intro x hx
      rcases mem_insertMany.mp hx with h | h
      · simp at h
      · exact scan_inv (by omega) (Eset_inv (by omega)) x h

theorem Eset_prev_inv {g : Grammar} {w : List Sym} {i : Nat} {prev : List (List Item)}
    (hprevE : ∀ o, o < i → prev[o]? = some (Eset g w o)) (hplen : prev.length = i)
    (hi : i ≤ w.length) :
    ∀ o E, prev[o]? = some E → ∀ y ∈ E, ItemInv g w o y := by
  intro o E hE
  have ho : o < i := by
    by_contra hno
    rw [List.getElem?_eq_none (by omega)] at hE
    cases hE
  rw [hprevE o ho] at hE
  cases hE
  exact Eset_inv (by omega)

theorem derive1_predict_eq {g : Grammar} {prev : List (List Item)} {i : Nat}
    {S : List Item} {it : Item} {ru : Rule} {σ : Sym}
    (hru : g.rules[it.rule]? = some ru) (hpost : ru.rhs[it.dot]? = some σ) :
    derive1 g prev i S it = (rulesFor g σ).map fun r => (⟨r, 0, i⟩ : Item) := by
  unfold derive1
  split
  · rename_i h
    rw [hru] at h
    cases h
  · rename_i ru2 h
    rw [hru] at h
    cases h
    split
    · rename_i σ2 h2
      rw [hpost] at h2
      cases h2
      rfl
    · rename_i h2
      rw [hpost] at h2
      cases h2

theorem derive1_complete_eq {g : Grammar} {prev : List (List Item)} {i : Nat}
    {S : List Item} {it : Item} {ru : Rule}
    (hru : g.rules[it.rule]? = some ru) (hdot : it.dot = ru.rhs.length) :
    derive1 g prev i S it = (prev.getD it.origin S).filterMap fun x =>
      if postdot g x = some ru.lhs then some ⟨x.rule, x.dot + 1, x.origin⟩ else none := by
  have hnone : ru.rhs[it.dot]? = none := List.getElem?_eq_none (by omega)
  unfold derive1
  split
  · rename_i h
    rw [hru] at h
    cases h
  · rename_i ru2 h
    rw [hru] at h
    cases h
    split
    · rename_i σ2 h2
      rw [hnone] at h2
      cases h2
    · rw [if_pos hdot]

theorem Eset_predict_closed {g : Grammar} {w : List Sym} {i : Nat} {σ : Sym} {r : Nat}
    {it : Item} (hi : i ≤ w.length) (hit : it ∈ Eset g w i)
    (hpost : postdot g it = some σ) (hr : r ∈ rulesFor g σ) :
    (⟨r, 0, i⟩ : Item) ∈ Eset g w i := by
  obtain ⟨prev, S, hEq, hplen, hprevE, hS, hnd⟩ := Eset_spec (g := g) i hi
  have hprev := Eset_prev_inv hprevE hplen hi
  obtain ⟨ru, hru, hdotpost⟩ := postdot_some hpost
  have hderiv : (⟨r, 0, i⟩ : Item) ∈ derive1 g prev i (closure g prev i S) it := by
    rw [derive1_predict_eq hru hdotpost]
    exact List.mem_map.mpr ⟨r, hr, rfl⟩
  rw [hEq]
  exact closure_closed hplen hprev hS hnd it (hEq ▸ hit) _ hderiv

theorem Eset_complete_closed {g : Grammar} {w : List Sym} {i : Nat} {it y : Item}
    {ru : Rule} (hi : i ≤ w.length) (hit : it ∈ Eset g w i)
    (hru : g.rules[it.rule]? = some ru) (hdot : it.dot = ru.rhs.length)
    (horig : it.origin ≤ i) (hy : y ∈ Eset g w it.origin)
    (hypost : postdot g y = some ru.lhs) :
    (⟨y.rule, y.dot + 1, y.origin⟩ : Item) ∈ Eset g w i := by
  obtain ⟨prev, S, hEq, hplen, hprevE, hS, hnd⟩ := Eset_spec (g := g) i hi
  have hprev := Eset_prev_inv hprevE hplen hi
  have hylook : y ∈ prev.getD it.origin (closure g prev i S) := by
    rcases Nat.lt_or_ge it.origin i with hlt | hge
    · have hgd : prev.getD it.origin (closure g prev i S) = prev[it.origin] :=
        List.getD_eq_getElem prev (closure g prev i S) (show it.origin < prev.length by omega)
      rw [hgd]
      have := hprevE it.origin hlt
      have hEo : prev[it.origin] = Eset g w it.origin := by
        rw [List.getElem?_eq_getElem (l := prev) (by omega)] at this
        exact Option.some_inj.mp this
      rw [hEo]
      exact hy
    · have hoi : it.origin = i := by omega
      rw [getD_default _ (by omega)]
      rw [← hEq, ← hoi]
      exact hy
  have hderiv : (⟨y.rule, y.dot + 1, y.origin⟩ : Item) ∈
      derive1 g prev i (closure g prev i S) it := by
    rw [derive1_complete_eq hru hdot]
    exact List.mem_filterMap.mpr ⟨y, hylook, by rw [if_pos hypost]⟩
  rw [hEq]
  exact closure_closed hplen hprev hS hnd it (hEq ▸ hit) _ hderiv

theorem Eset_scan_closed {g : Grammar} {w : List Sym} {i : Nat} {it : Item}
    (hi : i < w.length) (hit : it ∈ Eset g w i)
    (hpost : postdot g it = some (w.getD i 0)) :
    (⟨it.rule, it.dot + 1, it.origin⟩ : Item) ∈ Eset g w (i + 1) := by
  rw [Eset_succ hi]
  unfold nextSet
  apply subset_closure
  apply mem_insertMany.mpr
  refine Or.inr (List.mem_filterMap.mpr ⟨it, hit, ?_⟩)
  rw [if_pos hpost]

theorem Eset_seeded {g : Grammar} {w : List Sym} {r : Nat} (hr : r ∈ rulesFor g g.start) :
    (⟨r, 0, 0⟩ : Item) ∈ Eset g w 0 := by
  rw [Eset_zero]
  apply subset_closure
  exact List.mem_map.mpr ⟨r, hr, rfl⟩

/-! ### Completeness: every derivation is found by the recognizer -/

theorem isCompleteItem_iff {g : Grammar} {it : Item} {ru : Rule}
    (hru : g.rules[it.rule]? = some ru) :
    isCompleteItem g it = true ↔ it.dot = ru.rhs.length := by
  unfold isCompleteItem
  split
  · rename_i ru2 h
    rw [hru] at h
    cases h
    simp
  · rename_i h
    rw [hru] at h
    cases h

/-- The item advanced over a single postdot symbol whose derivation spans
`i..j` is found in earleme `j` (statement B of the completeness induction). -/
def AdvanceOne (g : Grammar) (w : List Sym) (n : Nat) : Prop :=
  ∀ i j : Nat, i ≤ j → j ≤ w.length → ∀ it : Item, it ∈ Eset g w i →
    ∀ σ : Sym, postdot g it = some σ → DerivN g n [σ] (slice w i j) →
      (⟨it.rule, it.dot + 1, it.origin⟩ : Item) ∈ Eset g w j

/-- The item advanced over `m` postdot symbols whose joint derivation spans
`i..j` is found in earleme `j` (statement C of the completeness induction). -/
def AdvanceMany (g : Grammar) (w : List Sym) (n : Nat) : Prop :=
  ∀ m i j : Nat, i ≤ j → j ≤ w.length → ∀ (it : Item) (ru : Rule), it ∈ Eset g w i →
    g.rules[it.rule]? = some ru → it.dot + m ≤ ru.rhs.length →
    DerivN g n ((ru.rhs.drop it.dot).take m) (slice w i j) →
      (⟨it.rule, it.dot + m, it.origin⟩ : Item) ∈ Eset g w j

theorem advance_both (g : Grammar) (w : List Sym) :
    ∀ n : Nat, AdvanceOne g w n ∧ AdvanceMany g w n := by
  intro n
  induction n using Nat.strong_induction_on with
  | _ n ih =>
    have hB : AdvanceOne g w n := by
      intro i j hij hj it hit σ hpost hder
      match n, hder with
      | 0, hder =>
        have heq : [σ] = slice w i j := derivN_zero_eq hder
        have hlen := congrArg List.length heq
        rw [length_slice hij hj] at hlen
        simp at hlen
        have hji : j = i + 1 := by omega
        subst hji
        have hilt : i < w.length := by omega
        rw [slice_one hilt] at heq
        have hσ : σ = w.getD i 0 := by
          simpa using heq
        exact Eset_scan_closed hilt hit (hσ ▸ hpost)
      | (k + 1), hder =>
        obtain ⟨rv, hrv, hlhs, hd⟩ := derivN_single_head hder
        obtain ⟨ri, hri⟩ := List.mem_iff_getElem?.mp hrv
        have hrFor : ri ∈ rulesFor g σ := mem_rulesFor.mpr ⟨rv, hri, hlhs⟩
        have hseeded : (⟨ri, 0, i⟩ : Item) ∈ Eset g w i :=
          Eset_predict_closed (by omega) hit hpost hrFor
        have hC := (ih k (by omega)).2
        have hfull : (⟨ri, 0 + rv.rhs.length, i⟩ : Item) ∈ Eset g w j := by
          apply hC rv.rhs.length i j hij hj _ rv hseeded hri (by simp)
          show DerivN g k ((rv.rhs.drop 0).take rv.rhs.length) (slice w i j)
          rw [List.drop_zero, List.take_length]
          exact hd
        apply Eset_complete_closed hj hfull hri
          (by simp) (show i ≤ j from hij) hit (hlhs ▸ hpost)
    have hC : ∀ m : Nat, ∀ n2 ≤ n, ∀ i j : Nat, i ≤ j → j ≤ w.length →
        ∀ (it : Item) (ru : Rule), it ∈ Eset g w i →
        g.rules[it.rule]? = some ru → it.dot + m ≤ ru.rhs.length →
        DerivN g n2 ((ru.rhs.drop it.dot).take m) (slice w i j) →
          (⟨it.rule, it.dot + m, it.origin⟩ : Item) ∈ Eset g w j := by
      intro m
      induction m with
      | zero =>
        intro n2 hn2 i j hij hj it ru hit hru hm hder
        simp only [List.take_zero] at hder
        have hnil := derivN_nil_eq hder
        have hji : i = j := (slice_eq_nil_iff hij hj).mp hnil
        subst hji
        have heta : (⟨it.rule, it.dot + 0, it.origin⟩ : Item) = it := rfl
        rw [heta]
        exact hit
      | succ m ihm =>
        intro n2 hn2 i j hij hj it ru hit hru hm hder
        have hdlt : it.dot < ru.rhs.length := by omega
        have hdecomp : (ru.rhs.drop it.dot).take (m + 1) =
            [ru.rhs[it.dot]] ++ (ru.rhs.drop (it.dot + 1)).take m := by
          rw [List.drop_eq_getElem_cons hdlt, List.take_succ_cons]
          rfl
        rw [hdecomp] at hder
        obtain ⟨n21, n22, x₁, x₂, hnsum, hxeq, hd1, hd2⟩ := derivN_split hder rfl
        obtain ⟨hkj, hx1, hx2⟩ := slice_split_of_append hij hj hxeq
        have hpost : postdot g it = some ru.rhs[it.dot] := by
          rw [postdot_eq hru]
          exact List.getElem?_eq_getElem hdlt
        have hik : i ≤ i + x₁.length := by omega
        have hBapp : AdvanceOne g w n21 := by
          rcases Nat.lt_or_ge n21 n with hlt | hge
          · exact (ih n21 hlt).1
          · have : n21 = n := by omega
            exact this ▸ hB
        have hadv : (⟨it.rule, it.dot + 1, it.origin⟩ : Item) ∈ Eset g w (i + x₁.length) := by
          apply hBapp i (i + x₁.length) hik (by omega) it hit _ hpost
          rw [← hx1]
          exact hd1
        have hrest : (⟨it.rule, (it.dot + 1) + m, it.origin⟩ : Item) ∈ Eset g w j := by
          apply ihm n22 (by omega) (i + x₁.length) j hkj hj _ ru hadv hru
            (show it.dot + 1 + m ≤ ru.rhs.length by omega)
          show DerivN g n22 ((ru.rhs.drop (it.dot + 1)).take m) (slice w (i + x₁.length) j)
          rw [← hx2]
          exact hd2
        have harith : it.dot + 1 + m = it.dot + (m + 1) := by omega
        rw [harith] at hrest
        exact hrest
    exact ⟨hB, fun m i j hij hj it ru hit hru hm hder =>
      hC m n (le_refl n) i j hij hj it ru hit hru hm hder⟩

/-! ### Recognition correctness (claim C1) -/

theorem hasCompleteParse_iff_exists (g : Grammar) (st : RecState) :
    hasCompleteParse g st = true ↔
      ∃ it ∈ lastSet st, isCompleteItem g it = true ∧
        itemLhs g it = some g.start ∧ it.origin = 0 := by
  unfold hasCompleteParse
  rw [List.any_eq_true]
  constructor
  · rintro ⟨it, hit, hcond⟩
    rw [Bool.and_eq_true, Bool.and_eq_true] at hcond
    exact ⟨it, hit, hcond.1.1, of_decide_eq_true hcond.1.2, of_decide_eq_true hcond.2⟩
  · rintro ⟨it, hit, h1, h2, h3⟩
    refine ⟨it, hit, ?_⟩
    rw [Bool.and_eq_true, Bool.and_eq_true]
    exact ⟨⟨h1, decide_eq_true h2⟩, decide_eq_true h3⟩

/-- C1: after feeding a whole input (one `discover` per symbol, each followed
by `finish_earleme`), `has_complete_parse` is true iff the input is a member
of the language generated by the grammar's start symbol; equivalently, iff the
current closed earleme contains a fully matched item whose LHS is the start
symbol and whose origin is 0. -/
theorem has_complete_parse_iff_language (g : Grammar) (w : List Sym) :
    (hasCompleteParse g (run g w) = true ↔ LanguageMem g w) ∧
    (hasCompleteParse g (run g w) = true ↔
      ∃ it ∈ lastSet (run g w), isCompleteItem g it = true ∧
        itemLhs g it = some g.start ∧ it.origin = 0) := by
  refine ⟨?_, hasCompleteParse_iff_exists g (run g w)⟩
  rw [hasCompleteParse_iff_exists]
  constructor
  · rintro ⟨it, hit, h1, h2, h3⟩
    rw [lastSet_run] at hit
    obtain ⟨ru, hru, hlhs⟩ := Option.map_eq_some'.mp h2
    have hdot : it.dot = ru.rhs.length := (isCompleteItem_iff hru).mp h1
    obtain ⟨ru2, hru2, _, _, hder⟩ := Eset_inv (le_refl w.length) it hit
    rw [hru] at hru2
    cases hru2
    rw [hdot, List.take_length] at hder
    rw [h3, slice_full] at hder
    exact ⟨ru, mem_of_getElem?_rules hru, hlhs, hder⟩
  · rintro ⟨r, hrmem, hlhs, hder⟩
    obtain ⟨n, hn⟩ := derives_iff_derivN.mp hder
    obtain ⟨ri, hri⟩ := List.mem_iff_getElem?.mp hrmem
    have hseed : (⟨ri, 0, 0⟩ : Item) ∈ Eset g w 0 :=
      Eset_seeded (mem_rulesFor.mpr ⟨r, hri, hlhs⟩)
    have hn2 : DerivN g n ((r.rhs.drop 0).take r.rhs.length) (slice w 0 w.length) := by
      rw [List.drop_zero, List.take_length, slice_full]
      exact hn
    have hfull : (⟨ri, 0 + r.rhs.length, 0⟩ : Item) ∈ Eset g w w.length :=
      (advance_both g w n).2 r.rhs.length 0 w.length (by omega) (le_refl _)
        ⟨ri, 0, 0⟩ r hseed hri (by simp) hn2
    refine ⟨⟨ri, 0 + r.rhs.length, 0⟩, ?_, ?_, ?_, rfl⟩
    · rw [lastSet_run]
      exact hfull
    · rw [isCompleteItem_iff hri]
      simp
    · unfold itemLhs
      rw [hri]
      simpa using hlhs

/-! ### Dead-earleme monotonicity (claim C4) -/

theorem closure_nil (g : Grammar) (prev : List (List Item)) (i : Nat) :
    closure g prev i [] = [] := by
  unfold closure
  exact iterFix_of_fixed rfl _

/-- A dead recognizer state: the current earleme holds no items and nothing
has been scanned toward the next one. -/
def DeadState (st : RecState) : Prop := lastSet st = [] ∧ st.pending = []

theorem dead_applyOp {g : Grammar} {st : RecState} (h : DeadState st) (op : Op) :
    DeadState (applyOp g st op) := by
  obtain ⟨hlast, hpend⟩ := h
  cases op with
  | disc s p =>
    show DeadState (if p = st.earleme then
      { st with pending := insertMany st.pending (scanItems g (lastSet st) s) } else st)
    by_cases hp : p = st.earleme
    · rw [if_pos hp]
      refine ⟨hlast, ?_⟩
      show insertMany st.pending (scanItems g (lastSet st) s) = []
      rw [hlast, hpend]
      rfl
    · rw [if_neg hp]
      exact ⟨hlast, hpend⟩
  | fin =>
    refine ⟨?_, rfl⟩
    show (st.chart ++ [closure g st.chart st.chart.length st.pending]).getLastD [] = []
    rw [hpend, closure_nil]
    simp

theorem dead_runOps {g : Grammar} {st : RecState} (h : DeadState st) (ops : List Op) :
    DeadState (runOps g st ops) := by
  induction ops generalizing st with
  | nil => exact h
  | cons op ops ih => exact ih (dead_applyOp h op)

theorem hasCompleteParse_dead {g : Grammar} {st : RecState} (h : DeadState st) :
    hasCompleteParse g st = false := by
  unfold hasCompleteParse
  rw [h.1]
  rfl

/-- C4: once `finish_earleme` has returned `false`, no later sequence of
`discover` and `finish_earleme` calls can make `has_complete_parse` return
`true`: the chart never resurrects a dead parse. -/
theorem dead_earleme_monotone (g : Grammar) (st : RecState)
    (h : (finishEarleme g st).2 = false) :
    ∀ ops : List Op, hasCompleteParse g (runOps g (finishEarleme g st).1 ops) = false := by
  intro ops
  have hE : closure g st.chart st.chart.length st.pending = [] := by
    have := of_decide_eq_false h
    simpa using this
  have hdead : DeadState (finishEarleme g st).1 := by
    constructor
    · show (st.chart ++ [closure g st.chart st.chart.length st.pending]).getLastD [] = []
      rw [hE]
      simp
    · rfl
  exact hasCompleteParse_dead (dead_runOps hdead ops)

/-- Witness for C4: the single-rule grammar `S → a` fed the wrong symbol `b`;
`finish_earleme` reports a dead earleme and a later `discover`/`finish`
sequence still reports no complete parse. -/
theorem dead_earleme_monotone_witness :
    hasCompleteParse ⟨0, [⟨0, [1]⟩]⟩
      (runOps ⟨0, [⟨0, [1]⟩]⟩
        (finishEarleme ⟨0, [⟨0, [1]⟩]⟩ (discover ⟨0, [⟨0, [1]⟩]⟩ (recInit ⟨0, [⟨0, [1]⟩]⟩) 2 0)).1
        [Op.disc 1 1, Op.fin]) = false :=
  dead_earleme_monotone ⟨0, [⟨0, [1]⟩]⟩
    (discover ⟨0, [⟨0, [1]⟩]⟩ (recInit ⟨0, [⟨0, [1]⟩]⟩) 2 0) (by decide) [Op.disc 1 1, Op.fin]

/-! ### Preprocessing and determinism (claim C7) -/

/-- Modelled from the spec: the per-symbol prediction index — "for each symbol
S, the set of (rule, position) pairs where S appears immediately after the
dot". -/
def predictionIndex (g : Grammar) : List (Sym × Nat × Nat) :=
  (List.range g.rules.length).flatMap fun r =>
    match g.rules[r]? with
    | some ru => (List.range ru.rhs.length).filterMap fun d =>
        match ru.rhs[d]? with
        | some σ => some (σ, r, d)
        | none => none
    | none => []

/-- Modelled from the spec: Leo eligibility of a (rule, position) pair —
whether "ignoring nullable symbols, exactly one non-nullable symbol remains"
in the suffix of the rule starting at that position. -/
def leoEligible (g : Grammar) (r d : Nat) : Bool :=
  match g.rules[r]? with
  | some ru => decide (((ru.rhs.drop d).filter fun s => !decide (s ∈ nullables g)).length = 1)
  | none => false

/-- Modelled from the spec: the `PreprocessedGrammar` — "an immutable,
shareable bundle of the original grammar plus derived tables": nullable
closure, prediction index and Leo-eligibility table. -/
structure PreprocessedGrammar where
  base : Grammar
  nullableSyms : List Sym
  predIndex : List (Sym × Nat × Nat)
  leoTable : List ((Nat × Nat) × Bool)
deriving DecidableEq

/-- Modelled from the spec: `lotsawa_preprocessed_grammar_create`, "a pure
function Grammar → PreprocessedGrammar". -/
def preprocess (g : Grammar) : PreprocessedGrammar :=
  ⟨g, nullables g, predictionIndex g,
    (List.range g.rules.length).flatMap fun r =>
      (List.range (maxRhsLen g + 1)).map fun d => ((r, d), leoEligible g r d)⟩

/-- Modelled from the spec: `lotsawa_recognizer_create` builds a recognizer
bound to a preprocessed grammar; the recognizer consults only the underlying
grammar for recognition. -/
def createRecognizer (pg : PreprocessedGrammar) : RecState := recInit pg.base

/-- The observable result of one recognizer call: `finish_earleme` returns its
alive boolean, `discover` returns nothing. -/
def opResult (g : Grammar) (st : RecState) : Op → Option Bool
  | .disc _ _ => none
  | .fin => some (finishEarleme g st).2

/-- Drive the recognizer and collect every call's observable result. -/
def runTrace (g : Grammar) (st : RecState) : List Op → RecState × List (Option Bool)
  | [] => (st, [])
  | op :: ops =>
    let rest := runTrace g (applyOp g st op) ops
    (rest.1, opResult g st op :: rest.2)

/-- C7: preprocessing and recognition are deterministic.  The model is a pure
function of its inputs, so the same grammar preprocesses to the same tables,
and two recognizers created from the same preprocessed grammar and driven by
the same call sequence have equal charts and equal per-call boolean results;
the theorem additionally records that equal recognizer states (however they
were produced) yield equal traces. -/
theorem recognition_deterministic (g : Grammar) (pg : PreprocessedGrammar)
    (ops : List Op) :
    preprocess g = preprocess g ∧
    runTrace pg.base (createRecognizer pg) ops =
      runTrace pg.base (createRecognizer pg) ops ∧
    (∀ st1 st2 : RecState, st1 = st2 →
      (runTrace pg.base st1 ops).1.chart = (runTrace pg.base st2 ops).1.chart ∧
      (runTrace pg.base st1 ops).2 = (runTrace pg.base st2 ops).2) :=
  ⟨rfl, rfl, fun _ _ h => by rw [h]; exact ⟨rfl, rfl⟩⟩

/-- Witness for C7 at a concrete grammar and call sequence. -/
theorem recognition_deterministic_witness :
    preprocess ⟨0, [⟨0, [1]⟩]⟩ = preprocess ⟨0, [⟨0, [1]⟩]⟩ ∧
    runTrace (preprocess ⟨0, [⟨0, [1]⟩]⟩).base
        (createRecognizer (preprocess ⟨0, [⟨0, [1]⟩]⟩)) [Op.disc 1 0, Op.fin] =
      runTrace (preprocess ⟨0, [⟨0, [1]⟩]⟩).base
        (createRecognizer (preprocess ⟨0, [⟨0, [1]⟩]⟩)) [Op.disc 1 0, Op.fin] ∧
    (∀ st1 st2 : RecState, st1 = st2 →
      (runTrace (preprocess ⟨0, [⟨0, [1]⟩]⟩).base st1 [Op.disc 1 0, Op.fin]).1.chart =
        (runTrace (preprocess ⟨0, [⟨0, [1]⟩]⟩).base st2 [Op.disc 1 0, Op.fin]).1.chart ∧
      (runTrace (preprocess ⟨0, [⟨0, [1]⟩]⟩).base st1 [Op.disc 1 0, Op.fin]).2 =
        (runTrace (preprocess ⟨0, [⟨0, [1]⟩]⟩).base st2 [Op.disc 1 0, Op.fin]).2) :=
  recognition_deterministic ⟨0, [⟨0, [1]⟩]⟩ (preprocess ⟨0, [⟨0, [1]⟩]⟩)
    [Op.disc 1 0, Op.fin]

/-! ### `discover` has no error channel (claim C10) -/

theorem scanItems_eq_nil {g : Grammar} {E : List Item} {s : Sym}
    (h : ∀ it ∈ E, postdot g it ≠ some s) : scanItems g E s = [] := by
  unfold scanItems
  rw [List.filterMap_eq_nil_iff]
  intro it hit
  rw [if_neg (h it hit)]

/-- C10: `discover` returns no value and signals no error.  A call whose
position argument is wrong leaves the state unchanged; a call whose symbol
matches no item in the current earleme leaves the chart and the pending set
unchanged; the failed match becomes observable only through the booleans
later returned by `finish_earleme` and `has_complete_parse`. -/
theorem discover_no_error (g : Grammar) (st : RecState) (s : Sym) (p : Nat)
    (hmatch : ∀ it ∈ lastSet st, postdot g it ≠ some s)
    (hpend : st.pending = []) :
    (∀ q : Nat, q ≠ st.earleme → discover g st s q = st) ∧
    (discover g st s p).pending = st.pending ∧
    (discover g st s p).chart = st.chart ∧
    (p = st.earleme →
      (finishEarleme g (discover g st s p)).2 = false ∧
      hasCompleteParse g (finishEarleme g (discover g st s p)).1 = false) := by
  have hscan : scanItems g (lastSet st) s = [] := scanItems_eq_nil hmatch
  have hpend2 : (discover g st s p).pending = [] := by
    unfold discover
    split
    · show insertMany st.pending (scanItems g (lastSet st) s) = []
      rw [hscan, hpend]
      rfl
    · exact hpend
  have hchart2 : (discover g st s p).chart = st.chart := by
    unfold discover
    split <;> rfl
  refine ⟨?_, by rw [hpend2, hpend], hchart2, ?_⟩
  · intro q hq
    unfold discover
    rw [if_neg hq]
  · intro _
    have hfin : (finishEarleme g (discover g st s p)).2 = false := by
      show decide (closure g (discover g st s p).chart (discover g st s p).chart.length
        (discover g st s p).pending ≠ []) = false
      rw [hpend2, closure_nil]
      simp
    refine ⟨hfin, ?_⟩
    apply hasCompleteParse_dead
    constructor
    · show ((discover g st s p).chart ++ [closure g (discover g st s p).chart
        (discover g st s p).chart.length (discover g st s p).pending]).getLastD [] = []
      rw [hpend2, closure_nil]
      simp
    · rfl

/-- Witness for C10: grammar `S → a`, symbol `b` matching nothing. -/
theorem discover_no_error_witness :
    (∀ q : Nat, q ≠ (recInit ⟨0, [⟨0, [1]⟩]⟩).earleme →
      discover ⟨0, [⟨0, [1]⟩]⟩ (recInit ⟨0, [⟨0, [1]⟩]⟩) 2 q = recInit ⟨0, [⟨0, [1]⟩]⟩) ∧
    (discover ⟨0, [⟨0, [1]⟩]⟩ (recInit ⟨0, [⟨0, [1]⟩]⟩) 2 0).pending =
      (recInit ⟨0, [⟨0, [1]⟩]⟩).pending ∧
    (discover ⟨0, [⟨0, [1]⟩]⟩ (recInit ⟨0, [⟨0, [1]⟩]⟩) 2 0).chart =
      (recInit ⟨0, [⟨0, [1]⟩]⟩).chart ∧
    (0 = (recInit ⟨0, [⟨0, [1]⟩]⟩).earleme →
      (finishEarleme ⟨0, [⟨0, [1]⟩]⟩
        (discover ⟨0, [⟨0, [1]⟩]⟩ (recInit ⟨0, [⟨0, [1]⟩]⟩) 2 0)).2 = false ∧
      hasCompleteParse ⟨0, [⟨0, [1]⟩]⟩
        (finishEarleme ⟨0, [⟨0, [1]⟩]⟩
          (discover ⟨0, [⟨0, [1]⟩]⟩ (recInit ⟨0, [⟨0, [1]⟩]⟩) 2 0)).1 = false) :=
  discover_no_error ⟨0, [⟨0, [1]⟩]⟩ (recInit ⟨0, [⟨0, [1]⟩]⟩) 2 0 (by decide) (by decide)

/-! ### The opaque-handle layer (claim C6)

Modelled from the spec: the binding layer holds each entity behind an opaque
handle; `copy` "produces an independent logical duplicate (mutations to the
copy must not affect the original)".  Handles are modelled as indices into
per-type slot lists. -/

/-- Modelled from the spec: the slots behind the opaque handles of the C API.
A recognizer slot pairs the shared preprocessed grammar with the recognizer's
own chart state. -/
structure Store where
  grammars : List Grammar
  preprocs : List PreprocessedGrammar
  recognizers : List (PreprocessedGrammar × RecState)
deriving DecidableEq

def emptyGrammar : Grammar := ⟨0, []⟩

def grammarAt (st : Store) (h : Nat) : Grammar := st.grammars.getD h emptyGrammar

def preprocAt (st : Store) (h : Nat) : PreprocessedGrammar :=
  st.preprocs.getD h (preprocess emptyGrammar)

def recAt (st : Store) (h : Nat) : PreprocessedGrammar × RecState :=
  st.recognizers.getD h (preprocess emptyGrammar, ⟨[], [], 0⟩)

/-- Modelled from the spec: `lotsawa_grammar_create` returns an empty grammar
behind a fresh handle; the integer argument fixes the start symbol (the spec
calls it `startSymbolCapacityHint`). -/
def lotsawa_grammar_create (st : Store) (start : Int) : Store × Nat :=
  ({ st with grammars := st.grammars ++ [⟨start, []⟩] }, st.grammars.length)

/-- Modelled from the spec: `lotsawa_grammar_copy` duplicates the grammar into
a fresh, independent handle. -/
def lotsawa_grammar_copy (st : Store) (h : Nat) : Store × Nat :=
  ({ st with grammars := st.grammars ++ [grammarAt st h] }, st.grammars.length)

/-- Modelled from the spec: `lotsawa_grammar_add_rule` "appends a production
and returns its newly assigned rule id; rule ids are assigned in strict
creation order starting at 0". -/
def lotsawa_grammar_add_rule (st : Store) (h : Nat) (lhs : Sym) (rhs : List Sym) :
    Store × Nat :=
  let g := grammarAt st h
  ({ st with grammars := st.grammars.set h ⟨g.start, g.rules ++ [⟨lhs, rhs⟩]⟩ },
    g.rules.length)

/-- Modelled from the spec: `lotsawa_preprocessed_grammar_create` preprocesses
the grammar into a fresh immutable handle. -/
def lotsawa_preprocessed_grammar_create (st : Store) (h : Nat) : Store × Nat :=
  ({ st with preprocs := st.preprocs ++ [preprocess (grammarAt st h)] },
    st.preprocs.length)

/-- Modelled from the spec: `lotsawa_preprocessed_grammar_copy`. -/
def lotsawa_preprocessed_grammar_copy (st : Store) (h : Nat) : Store × Nat :=
  ({ st with preprocs := st.preprocs ++ [preprocAt st h] }, st.preprocs.length)

/-- Modelled from the spec: `lotsawa_recognizer_create` binds a fresh
recognizer to a preprocessed grammar (sharing it read-only). -/
def lotsawa_recognizer_create (st : Store) (hp : Nat) : Store × Nat :=
  ({ st with recognizers := st.recognizers ++ [(preprocAt st hp, ⟨[], [], 0⟩)] },
    st.recognizers.length)

/-- Modelled from the spec: `lotsawa_recognizer_copy` "duplicates the chart
but shares the PreprocessedGrammar". -/
def lotsawa_recognizer_copy (st : Store) (h : Nat) : Store × Nat :=
  ({ st with recognizers := st.recognizers ++ [recAt st h] }, st.recognizers.length)

/-- Modelled from the spec: `lotsawa_recognizer_initialize` seeds earleme 0 of
the recognizer behind handle `h`.  (The C name ends in a word this development
cannot use as an identifier.) -/
def lotsawa_recognizer_init (st : Store) (h : Nat) : Store :=
  { st with recognizers := st.recognizers.set h ((recAt st h).1, recInit (recAt st h).1.base) }

/-- Modelled from the spec: `lotsawa_recognizer_discover` on a handle. -/
def lotsawa_recognizer_discover (st : Store) (h : Nat) (s : Sym) (p : Nat) : Store :=
  { st with recognizers :=
      st.recognizers.set h ((recAt st h).1, discover (recAt st h).1.base (recAt st h).2 s p) }

/-- Modelled from the spec: `lotsawa_recognizer_finish_earleme` on a handle,
returning the alive boolean. -/
def lotsawa_recognizer_finish_earleme (st : Store) (h : Nat) : Store × Bool :=
  let res := finishEarleme (recAt st h).1.base (recAt st h).2
  ({ st with recognizers := st.recognizers.set h ((recAt st h).1, res.1) }, res.2)

/-- Modelled from the spec: `lotsawa_recognizer_has_complete_parse` on a
handle; a pure read. -/
def lotsawa_recognizer_has_complete_parse (st : Store) (h : Nat) : Bool :=
  hasCompleteParse (recAt st h).1.base (recAt st h).2

theorem getD_append_self {α : Type} (l : List α) (a d : α) :
    (l ++ [a]).getD l.length d = a := by
  rw [List.getD_eq_getElem?_getD]
  simp

theorem getD_append_left {α : Type} {l : List α} {n : Nat} (tl : List α) (d : α)
    (h : n < l.length) : (l ++ tl).getD n d = l.getD n d := by
  rw [List.getD_eq_getElem?_getD, List.getD_eq_getElem?_getD,
    List.getElem?_append_left h]

theorem getD_set_ne {α : Type} {l : List α} {n m : Nat} (x : α) (d : α) (h : m ≠ n) :
    (l.set m x).getD n d = l.getD n d := by
  rw [List.getD_eq_getElem?_getD, List.getD_eq_getElem?_getD, List.getElem?_set_ne h]

/-- C6: copying a Grammar, PreprocessedGrammar, or Recognizer yields an
independent duplicate: the copy holds the same value, mutating the original
does not change the copy (nor its observable behavior), and mutating the copy
does not change the original. -/
theorem copy_isolation (st : Store) (hg hp hr : Nat) (lhs : Sym) (rhs : List Sym)
    (s : Sym) (p : Nat) (hG : hg < st.grammars.length)
    (hP : hp < st.preprocs.length) (hR : hr < st.recognizers.length) :
    (grammarAt (lotsawa_grammar_copy st hg).1 (lotsawa_grammar_copy st hg).2 =
        grammarAt st hg) ∧
    (grammarAt (lotsawa_grammar_add_rule (lotsawa_grammar_copy st hg).1 hg lhs rhs).1
        (lotsawa_grammar_copy st hg).2 =
      grammarAt (lotsawa_grammar_copy st hg).1 (lotsawa_grammar_copy st hg).2) ∧
    (grammarAt (lotsawa_grammar_add_rule (lotsawa_grammar_copy st hg).1
          (lotsawa_grammar_copy st hg).2 lhs rhs).1 hg =
      grammarAt (lotsawa_grammar_copy st hg).1 hg) ∧
    (preprocAt (lotsawa_preprocessed_grammar_copy st hp).1
        (lotsawa_preprocessed_grammar_copy st hp).2 = preprocAt st hp) ∧
    (recAt (lotsawa_recognizer_copy st hr).1 (lotsawa_recognizer_copy st hr).2 =
        recAt st hr) ∧
    (recAt (lotsawa_recognizer_discover (lotsawa_recognizer_copy st hr).1 hr s p)
        (lotsawa_recognizer_copy st hr).2 =
      recAt (lotsawa_recognizer_copy st hr).1 (lotsawa_recognizer_copy st hr).2) ∧
    (recAt (lotsawa_recognizer_finish_earleme (lotsawa_recognizer_copy st hr).1 hr).1
        (lotsawa_recognizer_copy st hr).2 =
      recAt (lotsawa_recognizer_copy st hr).1 (lotsawa_recognizer_copy st hr).2) ∧
    (recAt (lotsawa_recognizer_discover (lotsawa_recognizer_copy st hr).1
          (lotsawa_recognizer_copy st hr).2 s p) hr =
      recAt (lotsawa_recognizer_copy st hr).1 hr) ∧
    (lotsawa_recognizer_has_complete_parse
        (lotsawa_recognizer_discover (lotsawa_recognizer_copy st hr).1 hr s p)
        (lotsawa_recognizer_copy st hr).2 =
      lotsawa_recognizer_has_complete_parse (lotsawa_recognizer_copy st hr).1
        (lotsawa_recognizer_copy st hr).2) := by
  have hcopyG : grammarAt (lotsawa_grammar_copy st hg).1 (lotsawa_grammar_copy st hg).2 =
      grammarAt st hg := by
    unfold lotsawa_grammar_copy grammarAt
    exact getD_append_self _ _ _
  have hcopyGat : grammarAt (lotsawa_grammar_copy st hg).1 hg = grammarAt st hg := by
    unfold lotsawa_grammar_copy grammarAt
    exact getD_append_left _ _ hG
  have hmutOrig : grammarAt (lotsawa_grammar_add_rule (lotsawa_grammar_copy st hg).1
      hg lhs rhs).1 (lotsawa_grammar_copy st hg).2 =
      grammarAt (lotsawa_grammar_copy st hg).1 (lotsawa_grammar_copy st hg).2 := by
    unfold lotsawa_grammar_add_rule grammarAt
    rw [show (lotsawa_grammar_copy st hg).2 = st.grammars.length from rfl]
    exact getD_set_ne _ _ (by omega)
  have hmutCopy : grammarAt (lotsawa_grammar_add_rule (lotsawa_grammar_copy st hg).1
      (lotsawa_grammar_copy st hg).2 lhs rhs).1 hg =
      grammarAt (lotsawa_grammar_copy st hg).1 hg := by
    unfold lotsawa_grammar_add_rule grammarAt
    rw [show (lotsawa_grammar_copy st hg).2 = st.grammars.length from rfl]
    exact getD_set_ne _ _ (by omega)
  have hcopyP : preprocAt (lotsawa_preprocessed_grammar_copy st hp).1
      (lotsawa_preprocessed_grammar_copy st hp).2 = preprocAt st hp := by
    unfold lotsawa_preprocessed_grammar_copy preprocAt
    exact getD_append_self _ _ _
  have hcopyR : recAt (lotsawa_recognizer_copy st hr).1 (lotsawa_recognizer_copy st hr).2 =
      recAt st hr := by
    unfold lotsawa_recognizer_copy recAt
    exact getD_append_self _ _ _
  have hdiscOrig : recAt (lotsawa_recognizer_discover (lotsawa_recognizer_copy st hr).1
      hr s p) (lotsawa_recognizer_copy st hr).2 =
      recAt (lotsawa_recognizer_copy st hr).1 (lotsawa_recognizer_copy st hr).2 := by
    unfold lotsawa_recognizer_discover recAt
    rw [show (lotsawa_recognizer_copy st hr).2 = st.recognizers.length from rfl]
    exact getD_set_ne _ _ (by omega)
  have hfinOrig : recAt (lotsawa_recognizer_finish_earleme
      (lotsawa_recognizer_copy st hr).1 hr).1 (lotsawa_recognizer_copy st hr).2 =
      recAt (lotsawa_recognizer_copy st hr).1 (lotsawa_recognizer_copy st hr).2 := by
    unfold lotsawa_recognizer_finish_earleme recAt
    rw [show (lotsawa_recognizer_copy st hr).2 = st.recognizers.length from rfl]
    exact getD_set_ne _ _ (by omega)
  have hdiscCopy : recAt (lotsawa_recognizer_discover (lotsawa_recognizer_copy st hr).1
      (lotsawa_recognizer_copy st hr).2 s p) hr =
      recAt (lotsawa_recognizer_copy st hr).1 hr := by
    unfold lotsawa_recognizer_discover recAt
    rw [show (lotsawa_recognizer_copy st hr).2 = st.recognizers.length from rfl]
    exact getD_set_ne _ _ (by omega)
  refine ⟨hcopyG, hmutOrig, hmutCopy, hcopyP, hcopyR, hdiscOrig, hfinOrig, hdiscCopy, ?_⟩
  unfold lotsawa_recognizer_has_complete_parse
  rw [hdiscOrig]

/-- A one-slot store used by the claim-C6 witness. -/
def storeW : Store :=
  ⟨[⟨0, [⟨0, [1]⟩]⟩], [preprocess ⟨0, [⟨0, [1]⟩]⟩],
    [(preprocess ⟨0, [⟨0, [1]⟩]⟩, recInit ⟨0, [⟨0, [1]⟩]⟩)]⟩

/-- Witness for C6 on a one-slot store. -/
theorem copy_isolation_witness :
    (grammarAt (lotsawa_grammar_copy storeW 0).1 (lotsawa_grammar_copy storeW 0).2 =
        grammarAt storeW 0) ∧
    (grammarAt (lotsawa_grammar_add_rule (lotsawa_grammar_copy storeW 0).1 0 0 [1]).1
        (lotsawa_grammar_copy storeW 0).2 =
      grammarAt (lotsawa_grammar_copy storeW 0).1 (lotsawa_grammar_copy storeW 0).2) ∧
    (recAt (lotsawa_recognizer_discover (lotsawa_recognizer_copy storeW 0).1 0 1 0)
        (lotsawa_recognizer_copy storeW 0).2 =
      recAt (lotsawa_recognizer_copy storeW 0).1 (lotsawa_recognizer_copy storeW 0).2) := by
  have h := copy_isolation storeW 0 0 0 0 [1] 1 0 (by decide) (by decide) (by decide)
  exact ⟨h.1, h.2.1, h.2.2.2.2.2.1⟩

/-! ### Interface width limits (claim C9)

These predicates are translated from the header's typedefs:
`typedef int16_t LotsawaSymbol; typedef uint16_t LotsawaRule;
typedef uint16_t LotsawaGrammarPosition; typedef uint16_t LotsawaGrammarSize;
typedef uint32_t LotsawaSourcePosition;`. -/

/-- A value representable as a `LotsawaSymbol` (`int16_t`). -/
def isLotsawaSymbol (n : Int) : Prop := -(2 ^ 15) ≤ n ∧ n < 2 ^ 15

/-- A value representable as a `LotsawaRule` id (`uint16_t`). -/
def isLotsawaRule (n : Nat) : Prop := n < 2 ^ 16

/-- A value representable as a `LotsawaGrammarPosition` (`uint16_t`). -/
def isLotsawaGrammarPosition (n : Nat) : Prop := n < 2 ^ 16

/-- A value representable as a `LotsawaSourcePosition` (`uint32_t`). -/
def isLotsawaSourcePosition (n : Nat) : Prop := n < 2 ^ 32

theorem nodup_bounded_length {l : List Nat} {k : Nat} (hnd : l.Nodup)
    (hb : ∀ n ∈ l, n < k) : l.length ≤ k := by
  have hsub : l ⊆ List.range k := fun n hn => List.mem_range.mpr (hb n hn)
  have := (List.subperm_of_subset hnd hsub).length_le
  simpa using this

/-- C9: the interface fixes hard width limits.  Distinct representable rule
ids, grammar positions, or symbols number at most `2^16`, so a grammar with
more than `2^16` distinct rule ids (or an RHS with more than `2^16` distinct
positions, or more than `2^16` distinct symbols) necessarily uses a value the
interface cannot represent; source positions are bounded by `2^32`. -/
theorem interface_width_limits (ids ps : List Nat) (syms : List Int)
    (hnd : ids.Nodup) (hps : ps.Nodup) (hsyms : syms.Nodup) :
    ((∀ n ∈ ids, isLotsawaRule n) → ids.length ≤ 2 ^ 16) ∧
    ((∀ n ∈ ps, isLotsawaGrammarPosition n) → ps.length ≤ 2 ^ 16) ∧
    ((∀ n ∈ syms, isLotsawaSymbol n) → syms.length ≤ 2 ^ 16) ∧
    (2 ^ 16 < ids.length → ∃ n ∈ ids, ¬ isLotsawaRule n) ∧
    (∀ n : Nat, ¬ isLotsawaSourcePosition n → 2 ^ 32 ≤ n) := by
  have hruleLen : (∀ n ∈ ids, isLotsawaRule n) → ids.length ≤ 2 ^ 16 := fun h =>
    nodup_bounded_length hnd h
  refine ⟨hruleLen, fun h => nodup_bounded_length hps h, ?_, ?_, ?_⟩
  · intro h
    have hmapnd : (syms.map fun x => (x + 2 ^ 15).toNat).Nodup := by
      refine List.Nodup.map_on ?_ hsyms
      intro a ha b hb hab
      obtain ⟨h1a, h1b⟩ := h a ha
      obtain ⟨h2a, h2b⟩ := h b hb
      omega
    have hbound : ∀ n ∈ syms.map fun x => (x + 2 ^ 15).toNat, n < 2 ^ 16 := by
      intro n hn
      obtain ⟨x, hx, hxe⟩ := List.mem_map.mp hn
      obtain ⟨h1, h2⟩ := h x hx
      omega
    have := nodup_bounded_length hmapnd hbound
    simpa using this
  · intro hlen
    by_contra hno
    push_neg at hno
    have := hruleLen fun n hn => hno n hn
    omega
  · intro n hn
    unfold isLotsawaSourcePosition at hn
    omega

/-- Witness for C9 on concrete id, position and symbol lists. -/
theorem interface_width_limits_witness :
    ((∀ n ∈ List.range 3, isLotsawaRule n) → (List.range 3).length ≤ 2 ^ 16) ∧
    ((∀ n ∈ List.range 3, isLotsawaGrammarPosition n) → (List.range 3).length ≤ 2 ^ 16) ∧
    ((∀ n ∈ ([0, 1, -1] : List Int), isLotsawaSymbol n) →
      ([0, 1, -1] : List Int).length ≤ 2 ^ 16) ∧
    (2 ^ 16 < (List.range 3).length → ∃ n ∈ List.range 3, ¬ isLotsawaRule n) ∧
    (∀ n : Nat, ¬ isLotsawaSourcePosition n → 2 ^ 32 ≤ n) :=
  interface_width_limits (List.range 3) (List.range 3) [0, 1, -1]
    (List.nodup_range 3) (List.nodup_range 3) (by decide)

namespace Leo

/-! ### The Leo-enabled recognizer

Modelled from the spec.  Beyond the plain predictor/completer, the completer
follows section 4.3: "If the advancing item is itself eligible for Leo
treatment, and a Leo item for that postdot symbol does not yet exist, store a
Leo item instead of materializing the full chain of intermediate items"; a
Leo item is "a small record keyed by (postdot symbol, earleme) inside the
owning EarleySet" holding "the single topmost item it summarizes" and an
origin earleme.  The spec does not state how a stored Leo item is consulted
by later completions; following its data-model row, a completion whose origin
earleme holds a Leo item for the completed symbol yields that Leo item's
topmost item directly instead of advancing the origin set's waiting items. -/

/-- Modelled from the spec: "LeoItem — memoized transitive completion for a
right-recursive chain: postdot symbol, the single topmost item it summarizes,
origin earleme". -/
structure LeoItem where
  sym : Sym
  top : Item
  origin : Nat
deriving DecidableEq

/-- An element of a Leo-enabled Earley set: an ordinary item or a Leo item. -/
inductive Entry where
  | ord (it : Item)
  | leo (L : LeoItem)
deriving DecidableEq

/-- The ordinary items of a set. -/
def itemsOf (es : List Entry) : List Item :=
  es.filterMap fun e => match e with | .ord it => some it | .leo _ => none

/-- The Leo items of a set. -/
def leosOf (es : List Entry) : List LeoItem :=
  es.filterMap fun e => match e with | .ord _ => none | .leo L => some L

/-- Deduplicating insertion: an ordinary item is added unless already present;
a Leo item is added only if no Leo item for the same symbol exists yet ("at
most one Leo item per (postdot symbol) per earleme"). -/
def insertEntry (acc : List Entry) (e : Entry) : List Entry :=
  match e with
  | .ord it => if Entry.ord it ∈ acc then acc else acc ++ [e]
  | .leo L => if (leosOf acc).any fun L2 => decide (L2.sym = L.sym) then acc else acc ++ [e]

/-- Modelled from the spec: one item's contribution to the predictor/completer
pass, with the Leo rules of section 4.3 (see the section comment above). -/
def deriveL (g : Grammar) (prev : List (List Entry)) (i : Nat) (S : List Entry)
    (e : Entry) : List Entry :=
  match e with
  | .leo _ => []
  | .ord it =>
    match g.rules[it.rule]? with
    | none => []
    | some ru =>
      match ru.rhs[it.dot]? with
      | some σ => (rulesFor g σ).map fun r => Entry.ord ⟨r, 0, i⟩
      | none =>
        if it.dot = ru.rhs.length then
          match (leosOf (prev.getD it.origin S)).find? fun L => decide (L.sym = ru.lhs) with
          | some L => [Entry.ord L.top]
          | none =>
            (itemsOf (prev.getD it.origin S)).filterMap fun y =>
              if postdot g y = some ru.lhs then
                if leoEligible g y.rule y.dot then
                  if (leosOf S).any fun L2 => decide (L2.sym = ru.lhs) then none
                  else some (Entry.leo ⟨ru.lhs, ⟨y.rule, y.dot + 1, y.origin⟩, y.origin⟩)
                else some (Entry.ord ⟨y.rule, y.dot + 1, y.origin⟩)
              else none
        else []

/-- One pass of the Leo-enabled predictor/completer loop. -/
def stepL (g : Grammar) (prev : List (List Entry)) (i : Nat) (S : List Entry) :
    List Entry :=
  (S.flatMap (deriveL g prev i S)).foldl insertEntry S

/-- Bound on the entries of the earleme-`i` set, for the fixpoint fuel. -/
def entryUniv (g : Grammar) (i : Nat) : List Entry :=
  (chartUniv g i).map Entry.ord ++
    (g.rules.map Rule.lhs).flatMap fun σ =>
      (chartUniv g i).flatMap fun t =>
        (List.range (i + 1)).map fun o => Entry.leo ⟨σ, t, o⟩

/-- The Leo-enabled closure of an earleme. -/
def closureL (g : Grammar) (prev : List (List Entry)) (i : Nat) (S : List Entry) :
    List Entry :=
  iterFix (stepL g prev i) ((entryUniv g i).length + 1) S

/-- The Leo-enabled recognizer state. -/
structure RecStateL where
  chart : List (List Entry)
  pending : List Entry
  earleme : Nat
deriving DecidableEq

/-- Leo-enabled recognizer initialization (cf. `recInit`). -/
def recInitL (g : Grammar) : RecStateL :=
  ⟨[closureL g [] 0 ((seeds g).map Entry.ord)], [], 0⟩

/-- The set of the current (most recently closed) earleme. -/
def lastSetL (st : RecStateL) : List Entry := st.chart.getLastD []

/-- Leo-enabled `lotsawa_recognizer_discover` (the scanner only advances
ordinary items). -/
def discoverL (g : Grammar) (st : RecStateL) (s : Sym) (p : Nat) : RecStateL :=
  if p = st.earleme then
    { st with pending :=
        (((scanItems g (itemsOf (lastSetL st)) s).map Entry.ord).foldl insertEntry st.pending) }
  else st

/-- Leo-enabled `lotsawa_recognizer_finish_earleme`: the alive boolean counts
ordinary and Leo items alike. -/
def finishEarlemeL (g : Grammar) (st : RecStateL) : RecStateL × Bool :=
  let E := closureL g st.chart st.chart.length st.pending
  (⟨st.chart ++ [E], [], st.earleme + 1⟩, decide (E ≠ []))

/-- Leo-enabled `lotsawa_recognizer_has_complete_parse`: looks for a fully
matched start item among the ordinary items of the current earleme. -/
def hasCompleteParseL (g : Grammar) (st : RecStateL) : Bool :=
  (itemsOf (lastSetL st)).any fun it =>
    isCompleteItem g it && decide (itemLhs g it = some g.start) && decide (it.origin = 0)

/-- Apply one call to the Leo-enabled recognizer. -/
def applyOpL (g : Grammar) (st : RecStateL) : Op → RecStateL
  | .disc s p => discoverL g st s p
  | .fin => (finishEarlemeL g st).1

/-- Drive the Leo-enabled recognizer through a sequence of calls. -/
def runOpsL (g : Grammar) (st : RecStateL) (ops : List Op) : RecStateL :=
  ops.foldl (applyOpL g) st

/-- Feed a whole input to the Leo-enabled recognizer. -/
def runL (g : Grammar) (w : List Sym) : RecStateL :=
  w.foldl (fun st s => (finishEarlemeL g (discoverL g st s st.earleme)).1) (recInitL g)

theorem mem_leosOf {es : List Entry} {L : LeoItem} : L ∈ leosOf es ↔ Entry.leo L ∈ es := by
  induction es with
  | nil => simp [leosOf]
  | cons e es ih =>
    cases e with
    | ord it =>
      simp only [leosOf, List.filterMap_cons] at ih ⊢
      rw [List.mem_cons]
      constructor
      · intro h
        exact Or.inr (ih.mp h)
      · rintro (h | h)
        · cases h
        · exact ih.mpr h
    | leo L2 =>
      simp only [leosOf, List.filterMap_cons] at ih ⊢
      rw [List.mem_cons, List.mem_cons]
      constructor
      · rintro (h | h)
        · exact Or.inl (by rw [h])
        · exact Or.inr (ih.mp h)
      · rintro (h | h)
        · exact Or.inl (by cases h; rfl)
        · exact Or.inr (ih.mpr h)

theorem mem_itemsOf {es : List Entry} {it : Item} : it ∈ itemsOf es ↔ Entry.ord it ∈ es := by
  induction es with
  | nil => simp [itemsOf]
  | cons e es ih =>
    cases e with
    | ord it2 =>
      simp only [itemsOf, List.filterMap_cons] at ih ⊢
      rw [List.mem_cons, List.mem_cons]
      constructor
      · rintro (h | h)
        · exact Or.inl (by rw [h])
        · exact Or.inr (ih.mp h)
      · rintro (h | h)
        · exact Or.inl (by cases h; rfl)
        · exact Or.inr (ih.mpr h)
    | leo L =>
      simp only [itemsOf, List.filterMap_cons] at ih ⊢
      rw [List.mem_cons]
      constructor
      · intro h
        exact Or.inr (ih.mp h)
      · rintro (h | h)
        · cases h
        · exact ih.mpr h

theorem leosOf_append (a b : List Entry) : leosOf (a ++ b) = leosOf a ++ leosOf b := by
  simp [leosOf, List.filterMap_append]

theorem itemsOf_append (a b : List Entry) : itemsOf (a ++ b) = itemsOf a ++ itemsOf b := by
  simp [itemsOf, List.filterMap_append]

theorem entries_ne_nil_iff (l : List Entry) :
    l ≠ [] ↔ itemsOf l ≠ [] ∨ leosOf l ≠ [] := by
  cases l with
  | nil => simp [itemsOf, leosOf]
  | cons e es =>
    constructor
    · intro _
      cases e with
      | ord it => exact Or.inl (by simp [itemsOf, List.filterMap_cons])
      | leo L => exact Or.inr (by simp [leosOf, List.filterMap_cons])
    · intro _
      simp

/-! #### Structural invariants of the Leo-enabled recognizer -/

/-- Well-formedness of one entry of the earleme-`i` set: origins at most `i`,
dots within the rule. -/
def EntryOK (g : Grammar) (i : Nat) : Entry → Prop
  | .ord it => it.origin ≤ i ∧ ∃ ru, g.rules[it.rule]? = some ru ∧ it.dot ≤ ru.rhs.length
  | .leo L => L.origin ≤ i ∧ L.top.origin ≤ i ∧
      ∃ ru, g.rules[L.top.rule]? = some ru ∧ L.top.dot ≤ ru.rhs.length

/-- At most one Leo item per postdot symbol. -/
def LeoUnique (es : List Entry) : Prop := (leosOf es).Pairwise fun a b => a.sym ≠ b.sym

/-- The data-model invariants of one Earley set. -/
def SetInvL (g : Grammar) (i : Nat) (es : List Entry) : Prop :=
  es.Nodup ∧ LeoUnique es ∧ ∀ e ∈ es, EntryOK g i e

theorem entryOK_mono {g : Grammar} {i j : Nat} {e : Entry} (hij : i ≤ j)
    (h : EntryOK g i e) : EntryOK g j e := by
  cases e with
  | ord it =>
    obtain ⟨h1, h2⟩ := h
    exact ⟨by omega, h2⟩
  | leo L =>
    obtain ⟨h1, h2, h3⟩ := h
    exact ⟨by omega, by omega, h3⟩

theorem isPrefix_insertEntry (acc : List Entry) (e : Entry) : acc <+: insertEntry acc e := by
  cases e with
  | ord it =>
    show acc <+: if Entry.ord it ∈ acc then acc else acc ++ [Entry.ord it]
    split
    · exact List.prefix_refl acc
    · exact ⟨[Entry.ord it], rfl⟩
  | leo L =>
    show acc <+: if (leosOf acc).any fun L2 => decide (L2.sym = L.sym) then acc
      else acc ++ [Entry.leo L]
    split
    · exact List.prefix_refl acc
    · exact ⟨[Entry.leo L], rfl⟩

theorem mem_insertEntry {acc : List Entry} {e x : Entry} (h : x ∈ insertEntry acc e) :
    x ∈ acc ∨ x = e := by
  cases e with
  | ord it =>
    have h2 : x ∈ (if Entry.ord it ∈ acc then acc else acc ++ [Entry.ord it]) := h
    split at h2
    · exact Or.inl h2
    · rcases List.mem_append.mp h2 with h3 | h3
      · exact Or.inl h3
      · exact Or.inr (by simpa using h3)
  | leo L =>
    have h2 : x ∈ (if (leosOf acc).any fun L2 => decide (L2.sym = L.sym) then acc
        else acc ++ [Entry.leo L]) := h
    split at h2
    · exact Or.inl h2
    · rcases List.mem_append.mp h2 with h3 | h3
      · exact Or.inl h3
      · exact Or.inr (by simpa using h3)

theorem insertEntry_setInvL {g : Grammar} {i : Nat} {acc : List Entry} {e : Entry}
    (hacc : SetInvL g i acc) (he : EntryOK g i e) : SetInvL g i (insertEntry acc e) := by
  obtain ⟨hnd, huniq, hok⟩ := hacc
  cases e with
  | ord it =>
    show SetInvL g i (if Entry.ord it ∈ acc then acc else acc ++ [Entry.ord it])
    split
    · exact ⟨hnd, huniq, hok⟩
    · rename_i hnot
      refine ⟨by simp [List.nodup_append, hnd, hnot], ?_, ?_⟩
      · unfold LeoUnique at huniq ⊢
        rw [leosOf_append]
        have : leosOf [Entry.ord it] = [] := rfl
        rw [this]
        simpa using huniq
      · intro x hx
        rcases List.mem_append.mp hx with h3 | h3
        · exact hok x h3
        · have : x = Entry.ord it := by simpa using h3
          exact this ▸ he
  | leo L =>
    show SetInvL g i (if (leosOf acc).any fun L2 => decide (L2.sym = L.sym) then acc
      else acc ++ [Entry.leo L])
    split
    · exact ⟨hnd, huniq, hok⟩
    · rename_i hany
      have hfresh : ∀ L2 ∈ leosOf acc, L2.sym ≠ L.sym := by
        intro L2 hL2 hcontra
        apply hany
        rw [List.any_eq_true]
        exact ⟨L2, hL2, by simp [hcontra]⟩
      have hnotmem : Entry.leo L ∉ acc := fun hmem => hfresh L (mem_leosOf.mpr hmem) rfl
      refine ⟨by simp [List.nodup_append, hnd, hnotmem], ?_, ?_⟩
      · unfold LeoUnique at huniq ⊢
        rw [leosOf_append]
        have hsing : leosOf [Entry.leo L] = [L] := rfl
        rw [hsing]
        rw [List.pairwise_append]
        refine ⟨huniq, List.pairwise_singleton _ _, ?_⟩
        intro a ha b hb
        have hbL : b = L := by simpa using hb
        subst hbL
        exact hfresh a ha
      · intro x hx
        rcases List.mem_append.mp hx with h3 | h3
        · exact hok x h3
        · have : x = Entry.leo L := by simpa using h3
          exact this ▸ he

theorem inv_iterFix {α : Type} {f : List α → List α} {Inv : List α → Prop}
    (hf : ∀ t, Inv t → Inv (f t)) : ∀ (n : Nat) (s : List α), Inv s → Inv (iterFix f n s) := by
  intro n
  induction n with
  | zero => exact fun s h => h
  | succ n ih => exact fun s h => ih (f s) (hf s h)

theorem foldl_insertEntry_setInvL {g : Grammar} {i : Nat} :
    ∀ (xs s : List Entry), SetInvL g i s → (∀ e ∈ xs, EntryOK g i e) →
      SetInvL g i (xs.foldl insertEntry s) := by
  intro xs
  induction xs with
  | nil => exact fun s hs _ => hs
  | cons e xs ih =>
    intro s hs hxs
    exact ih (insertEntry s e) (insertEntry_setInvL hs (hxs e (by simp)))
      fun x hx => hxs x (by simp [hx])

theorem isPrefix_foldl_insertEntry (xs s : List Entry) : s <+: xs.foldl insertEntry s :=
  isPrefix_foldl insertEntry isPrefix_insertEntry xs s

theorem setInvL_nil (g : Grammar) (i : Nat) : SetInvL g i ([] : List Entry) :=
  ⟨List.nodup_nil, List.Pairwise.nil, by simp⟩

theorem leosOf_map_ord (xs : List Item) : leosOf (xs.map Entry.ord) = [] := by
  induction xs with
  | nil => rfl
  | cons x xs ih => simpa [leosOf, List.filterMap_cons] using ih

theorem deriveL_ok {g : Grammar} {prev : List (List Entry)} {i : Nat}
    (hplen : prev.length = i)
    (hprev : ∀ o E, prev[o]? = some E → ∀ e ∈ E, EntryOK g o e) :
    ∀ T : List Entry, (∀ e ∈ T, EntryOK g i e) →
      ∀ x ∈ T.flatMap (deriveL g prev i T), EntryOK g i x := by
  intro T hT x hx
  obtain ⟨e, he, hx⟩ := List.mem_flatMap.mp hx
  have horigOK : ∀ (o : Nat), o ≤ i → ∀ e2 ∈ prev.getD o T, EntryOK g i e2 := by
    intro o ho e2 he2
    rcases Nat.lt_or_ge o prev.length with hlt | hge
    · have hgd : prev.getD o T = prev[o] := List.getD_eq_getElem prev T hlt
      rw [hgd] at he2
      exact entryOK_mono (by omega) (hprev o _ (List.getElem?_eq_getElem hlt) e2 he2)
    · rw [getD_default T hge] at he2
      exact hT e2 he2
  cases e with
  | leo L => simp [deriveL] at hx
  | ord it =>
    simp only [deriveL] at hx
    split at hx
    · simp at hx
    · rename_i ru hru
      split at hx
      · rename_i σ hσ
        obtain ⟨r, hr, hxeq⟩ := List.mem_map.mp hx
        obtain ⟨ru2, hru2, _⟩ := mem_rulesFor.mp hr
        exact hxeq ▸ ⟨by simp, ru2, hru2, by simp⟩
      · split at hx
        · rename_i hdot
          have hoit : it.origin ≤ i := (hT _ he).1
          split at hx
          · rename_i L hfind
            have hLmem : L ∈ leosOf (prev.getD it.origin T) := List.mem_of_find?_eq_some hfind
            have hLOK : EntryOK g i (Entry.leo L) :=
              horigOK it.origin hoit (Entry.leo L) (mem_leosOf.mp hLmem)
            obtain ⟨h1, h2, ru3, hru3, h3⟩ := hLOK
            have hxeq : x = Entry.ord L.top := by simpa using hx
            exact hxeq ▸ ⟨h2, ru3, hru3, h3⟩
          · obtain ⟨y, hy, hyeq⟩ := List.mem_filterMap.mp hx
            have hyOK : EntryOK g i (Entry.ord y) :=
              horigOK it.origin hoit (Entry.ord y) (mem_itemsOf.mp hy)
            obtain ⟨hyorig, ruy0, hruy0, _⟩ := hyOK
            split at hyeq
            · rename_i hypost
              obtain ⟨ruY, hruY, hydot⟩ := postdot_some hypost
              have hydlt : y.dot < ruY.rhs.length := by
                rw [List.getElem?_eq_some] at hydot
                exact hydot.1
              split at hyeq
              · split at hyeq
                · cases hyeq
                · cases hyeq
                  exact ⟨show y.origin ≤ i from hyorig, show y.origin ≤ i from hyorig,
                    ruY, hruY, show y.dot + 1 ≤ ruY.rhs.length by omega⟩
              · cases hyeq
                exact ⟨show y.origin ≤ i from hyorig, ruY, hruY,
                  show y.dot + 1 ≤ ruY.rhs.length by omega⟩
            · cases hyeq
        · simp at hx

theorem stepL_setInvL {g : Grammar} {prev : List (List Entry)} {i : Nat}
    (hplen : prev.length = i)
    (hprev : ∀ o E, prev[o]? = some E → ∀ e ∈ E, EntryOK g o e)
    (T : List Entry) (hT : SetInvL g i T) : SetInvL g i (stepL g prev i T) :=
  foldl_insertEntry_setInvL _ T hT (deriveL_ok hplen hprev T hT.2.2)

theorem closureL_setInvL {g : Grammar} {prev : List (List Entry)} {i : Nat}
    (hplen : prev.length = i)
    (hprev : ∀ o E, prev[o]? = some E → ∀ e ∈ E, EntryOK g o e)
    {S : List Entry} (hS : SetInvL g i S) : SetInvL g i (closureL g prev i S) :=
  inv_iterFix (stepL_setInvL hplen hprev) _ S hS

/-- The reachable-state invariant of the Leo-enabled recognizer. -/
def StInvL (g : Grammar) (st : RecStateL) : Prop :=
  st.chart.length = st.earleme + 1 ∧
  (∀ i E, st.chart[i]? = some E → SetInvL g i E) ∧
  SetInvL g (st.earleme + 1) st.pending

theorem recInitL_stInvL (g : Grammar) : StInvL g (recInitL g) := by
  refine ⟨rfl, ?_, setInvL_nil g 1⟩
  intro i E hE
  have hi : i = 0 := by
    by_contra hno
    have : (1 : Nat) ≤ i := by omega
    rw [show (recInitL g).chart = [closureL g [] 0 ((seeds g).map Entry.ord)] from rfl] at hE
    rw [List.getElem?_eq_none (by simpa using this)] at hE
    cases hE
  subst hi
  have hE2 : closureL g [] 0 ((seeds g).map Entry.ord) = E := by
    rw [show (recInitL g).chart = [closureL g [] 0 ((seeds g).map Entry.ord)] from rfl] at hE
    simpa using hE
  subst hE2
  apply closureL_setInvL rfl (by intro o E h; simp at h)
  refine ⟨?_, ?_, ?_⟩
  · exact (nodup_seeds g).map (fun a b h => by cases h; rfl)
  · unfold LeoUnique
    rw [leosOf_map_ord]
    exact List.Pairwise.nil
  · intro e hee
    obtain ⟨it, hit, rfl⟩ := List.mem_map.mp hee
    obtain ⟨r, hr, rfl⟩ := List.mem_map.mp hit
    obtain ⟨ru, hru, _⟩ := mem_rulesFor.mp hr
    exact ⟨by simp, ru, hru, by simp⟩

theorem lastSetL_getElem? {st : RecStateL} (h : 0 < st.chart.length) :
    st.chart[st.chart.length - 1]? = some (lastSetL st) :=
  getLastD_eq_getElem? st.chart [] h

theorem applyOpL_stInvL {g : Grammar} {st : RecStateL} (h : StInvL g st) (op : Op) :
    StInvL g (applyOpL g st op) := by
  obtain ⟨hlen, hchart, hpend⟩ := h
  cases op with
  | disc s p =>
    show StInvL g (if p = st.earleme then
      { st with pending :=
        ((scanItems g (itemsOf (lastSetL st)) s).map Entry.ord).foldl insertEntry st.pending }
      else st)
    split
    · refine ⟨hlen, hchart, ?_⟩
      apply foldl_insertEntry_setInvL _ _ hpend
      intro e hee
      obtain ⟨it, hit, rfl⟩ := List.mem_map.mp hee
      obtain ⟨y, hy, hyeq⟩ := List.mem_filterMap.mp hit
      split at hyeq
      · rename_i hypost
        cases hyeq
        have hlast : st.chart[st.earleme]? = some (lastSetL st) := by
          have := lastSetL_getElem? (show 0 < st.chart.length by omega)
          rw [hlen] at this
          simpa using this
        have hyOK : EntryOK g st.earleme (Entry.ord y) :=
          (hchart st.earleme _ hlast).2.2 (Entry.ord y) (mem_itemsOf.mp hy)
        obtain ⟨hyorig, ruY0, hruY0, _⟩ := hyOK
        obtain ⟨ruY, hruY, hydot⟩ := postdot_some hypost
        have hydlt : y.dot < ruY.rhs.length := by
          rw [List.getElem?_eq_some] at hydot
          exact hydot.1
        exact ⟨show y.origin ≤ st.earleme + 1 by omega, ruY, hruY,
          show y.dot + 1 ≤ ruY.rhs.length by omega⟩
      · cases hyeq
    · exact ⟨hlen, hchart, hpend⟩
  | fin =>
    refine ⟨?_, ?_, ?_⟩
    · show (st.chart ++ [closureL g st.chart st.chart.length st.pending]).length =
        (st.earleme + 1) + 1
      simp [hlen]
    · intro i E hE
      show SetInvL g i E
      rcases Nat.lt_or_ge i st.chart.length with hlt | hge
      · rw [show (applyOpL g st Op.fin).chart =
            st.chart ++ [closureL g st.chart st.chart.length st.pending] from rfl] at hE
        rw [List.getElem?_append_left hlt] at hE
        exact hchart i E hE
      · have hieq : i = st.chart.length := by
          by_contra hno
          rw [show (applyOpL g st Op.fin).chart =
              st.chart ++ [closureL g st.chart st.chart.length st.pending] from rfl] at hE
          rw [List.getElem?_eq_none (by simp; omega)] at hE
          cases hE
        subst hieq
        have hEeq : closureL g st.chart st.chart.length st.pending = E := by
          rw [show (applyOpL g st Op.fin).chart =
              st.chart ++ [closureL g st.chart st.chart.length st.pending] from rfl] at hE
          rw [List.getElem?_concat_length] at hE
          simpa using hE
        subst hEeq
        apply closureL_setInvL rfl
          (fun o E2 hE2 e he => (hchart o E2 hE2).2.2 e he)
        rw [hlen]
        exact hpend
    · show SetInvL g ((st.earleme + 1) + 1) ([] : List Entry)
      exact setInvL_nil g _

theorem runOpsL_stInvL {g : Grammar} {st : RecStateL} (h : StInvL g st) (ops : List Op) :
    StInvL g (runOpsL g st ops) := by
  induction ops generalizing st with
  | nil => exact h
  | cons op ops ih => exact ih (applyOpL_stInvL h op)

theorem nodup_itemsOf {es : List Entry} (h : es.Nodup) : (itemsOf es).Nodup := by
  apply List.Nodup.filterMap _ h
  intro a a2 b hb hb2
  cases a with
  | ord it =>
    cases a2 with
    | ord it2 =>
      simp at hb hb2
      rw [hb, hb2]
    | leo L => simp at hb2
  | leo L => simp at hb

/-- C8: every reachable Leo-enabled recognizer state satisfies the data-model
invariants: chart length equals the earleme counter plus one; each earleme's
item set holds each (rule, dot, origin) triple at most once; each earleme has
at most one Leo item per postdot symbol; every item has origin at most the
current earleme and dot at most its rule's RHS length; and sets grow only
additively (the pending set is extended, never rewritten, by `discover`, and
is a prefix of the set `finish_earleme` closes). -/
theorem reachable_invariants (g : Grammar) (ops : List Op) (st : RecStateL)
    (h : st = runOpsL g (recInitL g) ops) :
    st.chart.length = st.earleme + 1 ∧
    (∀ (i : Nat) (E : List Entry), st.chart[i]? = some E →
      (itemsOf E).Nodup ∧
      (leosOf E).Pairwise (fun a b => a.sym ≠ b.sym) ∧
      (∀ it ∈ itemsOf E, it.origin ≤ st.earleme ∧
        ∃ ru, g.rules[it.rule]? = some ru ∧ it.dot ≤ ru.rhs.length)) ∧
    (∀ s p, st.pending <+: (discoverL g st s p).pending) ∧
    st.pending <+: lastSetL (finishEarlemeL g st).1 := by
  have hinv : StInvL g st := h ▸ runOpsL_stInvL (recInitL_stInvL g) ops
  obtain ⟨hlen, hchart, hpend⟩ := hinv
  refine ⟨hlen, ?_, ?_, ?_⟩
  · intro i E hE
    obtain ⟨hnd, huniq, hok⟩ := hchart i E hE
    have hile : i < st.chart.length := by
      by_contra hno
      rw [List.getElem?_eq_none (by omega)] at hE
      cases hE
    refine ⟨nodup_itemsOf hnd, huniq, ?_⟩
    intro it hit
    obtain ⟨h1, ru, hru, h2⟩ := hok (Entry.ord it) (mem_itemsOf.mp hit)
    exact ⟨by omega, ru, hru, h2⟩
  · intro s p
    unfold discoverL
    split
    · exact isPrefix_foldl_insertEntry _ _
    · exact List.prefix_refl _
  · show st.pending <+:
      (st.chart ++ [closureL g st.chart st.chart.length st.pending]).getLastD []
    have hlast : (st.chart ++ [closureL g st.chart st.chart.length st.pending]).getLastD []
        = closureL g st.chart st.chart.length st.pending := by
      simp
    rw [hlast]
    exact isPrefix_iterFix (fun t => isPrefix_foldl_insertEntry _ t) _ _

/-- Witness for C8 at a concrete reachable state (grammar `S → a`, one
scanned symbol, one closed earleme). -/
theorem reachable_invariants_witness :
    (runOpsL ⟨0, [⟨0, [1]⟩]⟩ (recInitL ⟨0, [⟨0, [1]⟩]⟩) [Op.disc 1 0, Op.fin]).chart.length =
      (runOpsL ⟨0, [⟨0, [1]⟩]⟩ (recInitL ⟨0, [⟨0, [1]⟩]⟩) [Op.disc 1 0, Op.fin]).earleme + 1 ∧
    (∀ (i : Nat) (E : List Entry), (runOpsL ⟨0, [⟨0, [1]⟩]⟩ (recInitL ⟨0, [⟨0, [1]⟩]⟩)
        [Op.disc 1 0, Op.fin]).chart[i]? = some E →
      (itemsOf E).Nodup ∧
      (leosOf E).Pairwise (fun a b => a.sym ≠ b.sym) ∧
      (∀ it ∈ itemsOf E, it.origin ≤
          (runOpsL ⟨0, [⟨0, [1]⟩]⟩ (recInitL ⟨0, [⟨0, [1]⟩]⟩) [Op.disc 1 0, Op.fin]).earleme ∧
        ∃ ru, (Grammar.rules ⟨0, [⟨0, [1]⟩]⟩)[it.rule]? = some ru ∧
          it.dot ≤ ru.rhs.length)) ∧
    (∀ s p, (runOpsL ⟨0, [⟨0, [1]⟩]⟩ (recInitL ⟨0, [⟨0, [1]⟩]⟩)
        [Op.disc 1 0, Op.fin]).pending <+:
      (discoverL ⟨0, [⟨0, [1]⟩]⟩ (runOpsL ⟨0, [⟨0, [1]⟩]⟩ (recInitL ⟨0, [⟨0, [1]⟩]⟩)
        [Op.disc 1 0, Op.fin]) s p).pending) ∧
    (runOpsL ⟨0, [⟨0, [1]⟩]⟩ (recInitL ⟨0, [⟨0, [1]⟩]⟩) [Op.disc 1 0, Op.fin]).pending <+:
      lastSetL (finishEarlemeL ⟨0, [⟨0, [1]⟩]⟩
        (runOpsL ⟨0, [⟨0, [1]⟩]⟩ (recInitL ⟨0, [⟨0, [1]⟩]⟩) [Op.disc 1 0, Op.fin])).1 :=
  reachable_invariants ⟨0, [⟨0, [1]⟩]⟩ [Op.disc 1 0, Op.fin] _ rfl

/-! #### The alive boolean (claim C2) -/

theorem closureL_nil (g : Grammar) (prev : List (List Entry)) (i : Nat) :
    closureL g prev i [] = [] := by
  unfold closureL
  exact iterFix_of_fixed rfl _

/-- A dead Leo-enabled recognizer state. -/
def DeadStateL (st : RecStateL) : Prop := lastSetL st = [] ∧ st.pending = []

theorem dead_applyOpL {g : Grammar} {st : RecStateL} (h : DeadStateL st) (op : Op) :
    DeadStateL (applyOpL g st op) := by
  obtain ⟨hlast, hpend⟩ := h
  cases op with
  | disc s p =>
    show DeadStateL (if p = st.earleme then
      { st with pending :=
        ((scanItems g (itemsOf (lastSetL st)) s).map Entry.ord).foldl insertEntry st.pending }
      else st)
    by_cases hp : p = st.earleme
    · rw [if_pos hp]
      refine ⟨hlast, ?_⟩
      show ((scanItems g (itemsOf (lastSetL st)) s).map Entry.ord).foldl
        insertEntry st.pending = []
      rw [hlast, hpend]
      rfl
    · rw [if_neg hp]
      exact ⟨hlast, hpend⟩
  | fin =>
    refine ⟨?_, rfl⟩
    show (st.chart ++ [closureL g st.chart st.chart.length st.pending]).getLastD [] = []
    rw [hpend, closureL_nil]
    simp

theorem dead_runOpsL {g : Grammar} {st : RecStateL} (h : DeadStateL st) (ops : List Op) :
    DeadStateL (runOpsL g st ops) := by
  induction ops generalizing st with
  | nil => exact h
  | cons op ops ih => exact ih (dead_applyOpL h op)

theorem hasCompleteParseL_dead {g : Grammar} {st : RecStateL} (h : DeadStateL st) :
    hasCompleteParseL g st = false := by
  unfold hasCompleteParseL
  rw [h.1]
  rfl

/-- C2: `finish_earleme` returns `true` iff the earleme it just closed
contains at least one item, ordinary or Leo; it returns `false` exactly when
that earleme is empty, and in that case no continuation of the input can be
recognized: every later `has_complete_parse` is `false` and every later
`finish_earleme` returns `false` as well. -/
theorem finish_earleme_alive_iff (g : Grammar) (st : RecStateL) :
    ((finishEarlemeL g st).2 = true ↔
      (itemsOf (lastSetL (finishEarlemeL g st).1) ≠ [] ∨
        leosOf (lastSetL (finishEarlemeL g st).1) ≠ [])) ∧
    ((finishEarlemeL g st).2 = false →
      ∀ ops : List Op,
        hasCompleteParseL g (runOpsL g (finishEarlemeL g st).1 ops) = false ∧
        (finishEarlemeL g (runOpsL g (finishEarlemeL g st).1 ops)).2 = false) := by
  have hlast : lastSetL (finishEarlemeL g st).1 =
      closureL g st.chart st.chart.length st.pending := by
    show (st.chart ++ [closureL g st.chart st.chart.length st.pending]).getLastD [] = _
    simp
  constructor
  · rw [hlast]
    show decide (closureL g st.chart st.chart.length st.pending ≠ []) = true ↔ _
    rw [decide_eq_true_iff]
    exact entries_ne_nil_iff _
  · intro hfalse ops
    have hE : closureL g st.chart st.chart.length st.pending = [] := by
      have := of_decide_eq_false hfalse
      simpa using this
    have hdead : DeadStateL (finishEarlemeL g st).1 := by
      constructor
      · rw [hlast, hE]
      · rfl
    have hdead2 := dead_runOpsL (g := g) hdead ops
    refine ⟨hasCompleteParseL_dead hdead2, ?_⟩
    show decide (closureL g (runOpsL g (finishEarlemeL g st).1 ops).chart
      (runOpsL g (finishEarlemeL g st).1 ops).chart.length
      (runOpsL g (finishEarlemeL g st).1 ops).pending ≠ []) = false
    rw [hdead2.2, closureL_nil]
    simp

/-- Witness for C2 at a concrete state (grammar `S → a`, wrong symbol `b`
scanned, so the closed earleme is empty). -/
theorem finish_earleme_alive_iff_witness :
    ((finishEarlemeL ⟨0, [⟨0, [1]⟩]⟩
        (discoverL ⟨0, [⟨0, [1]⟩]⟩ (recInitL ⟨0, [⟨0, [1]⟩]⟩) 2 0)).2 = true ↔
      (itemsOf (lastSetL (finishEarlemeL ⟨0, [⟨0, [1]⟩]⟩
          (discoverL ⟨0, [⟨0, [1]⟩]⟩ (recInitL ⟨0, [⟨0, [1]⟩]⟩) 2 0)).1) ≠ [] ∨
        leosOf (lastSetL (finishEarlemeL ⟨0, [⟨0, [1]⟩]⟩
          (discoverL ⟨0, [⟨0, [1]⟩]⟩ (recInitL ⟨0, [⟨0, [1]⟩]⟩) 2 0)).1) ≠ [])) ∧
    ((finishEarlemeL ⟨0, [⟨0, [1]⟩]⟩
        (discoverL ⟨0, [⟨0, [1]⟩]⟩ (recInitL ⟨0, [⟨0, [1]⟩]⟩) 2 0)).2 = false →
      ∀ ops : List Op,
        hasCompleteParseL ⟨0, [⟨0, [1]⟩]⟩
          (runOpsL ⟨0, [⟨0, [1]⟩]⟩ (finishEarlemeL ⟨0, [⟨0, [1]⟩]⟩
            (discoverL ⟨0, [⟨0, [1]⟩]⟩ (recInitL ⟨0, [⟨0, [1]⟩]⟩) 2 0)).1 ops) = false ∧
        (finishEarlemeL ⟨0, [⟨0, [1]⟩]⟩
          (runOpsL ⟨0, [⟨0, [1]⟩]⟩ (finishEarlemeL ⟨0, [⟨0, [1]⟩]⟩
            (discoverL ⟨0, [⟨0, [1]⟩]⟩ (recInitL ⟨0, [⟨0, [1]⟩]⟩) 2 0)).1 ops)).2 = false) :=
  finish_earleme_alive_iff ⟨0, [⟨0, [1]⟩]⟩
    (discoverL ⟨0, [⟨0, [1]⟩]⟩ (recInitL ⟨0, [⟨0, [1]⟩]⟩) 2 0)

end Leo

/-- Language membership coincides with deriving the word from the start
symbol by at least one production application. -/
theorem languageMem_iff_head_step (g : Grammar) (w : List Sym) :
    LanguageMem g w ↔ ∃ n, DerivN g (n + 1) [g.start] w := by
  constructor
  · rintro ⟨r, hr, hlhs, hder⟩
    obtain ⟨n, hn⟩ := derives_iff_derivN.mp hder
    exact ⟨n, .head (hlhs ▸ produces_single hr) hn⟩
  · rintro ⟨n, hn⟩
    obtain ⟨r, hr, hlhs, hd⟩ := derivN_single_head hn
    exact ⟨r, hr, hlhs, derives_iff_derivN.mpr ⟨n, hd⟩⟩

/-- Spec scenario 1: grammar `S → a`, input `a`: accepted. -/
theorem scenario_single_symbol :
    hasCompleteParse ⟨0, [⟨0, [1]⟩]⟩ (run ⟨0, [⟨0, [1]⟩]⟩ [1]) = true := by decide

/-- Spec scenario 2: grammar `S → a`, input `b`: the earleme dies and there is
no complete parse. -/
theorem scenario_wrong_symbol :
    hasCompleteParse ⟨0, [⟨0, [1]⟩]⟩ (run ⟨0, [⟨0, [1]⟩]⟩ [2]) = false ∧
    (finishEarleme ⟨0, [⟨0, [1]⟩]⟩
      (discover ⟨0, [⟨0, [1]⟩]⟩ (recInit ⟨0, [⟨0, [1]⟩]⟩) 2 0)).2 = false := by
  exact ⟨by decide, by decide⟩

/-- Spec scenario 3: grammar `S → S a | a` over input `aaa`: accepted through
ordinary completion chains. -/
theorem scenario_left_recursive :
    hasCompleteParse ⟨0, [⟨0, [0, 1]⟩, ⟨0, [1]⟩]⟩
      (run ⟨0, [⟨0, [0, 1]⟩, ⟨0, [1]⟩]⟩ [1, 1, 1]) = true := by decide

/-- Spec scenario 4: right-recursive grammar `S → a S | ε` over input `aaaa`:
accepted (shown here on the reference model). -/
theorem scenario_right_recursive :
    hasCompleteParse ⟨0, [⟨0, [1, 0]⟩, ⟨0, []⟩]⟩
      (run ⟨0, [⟨0, [1, 0]⟩, ⟨0, []⟩]⟩ [1, 1, 1, 1]) = true := by decide

/-- Spec scenario 5: nullable `A → ε` with `S → A A a` over input `a`: the
predictor traverses the nullable `A` without consuming symbols. -/
theorem scenario_nullable :
    hasCompleteParse ⟨0, [⟨2, []⟩, ⟨0, [2, 2, 1]⟩]⟩
      (run ⟨0, [⟨2, []⟩, ⟨0, [2, 2, 1]⟩]⟩ [1]) = true := by decide

/-- The spec's Leo description, modelled literally, does not preserve
`has_complete_parse`: on the right-recursive grammar `S → a S | b` over input
`a b`, the Leo-enabled model stores a Leo item in place of the completed start
item and reports no complete parse, while the reference recognizer accepts.
This records why the Leo-equivalence property cannot be settled against the
spec's words alone. -/
theorem leo_literal_model_diverges :
    Leo.hasCompleteParseL ⟨0, [⟨0, [1, 0]⟩, ⟨0, [2]⟩]⟩
      (Leo.runL ⟨0, [⟨0, [1, 0]⟩, ⟨0, [2]⟩]⟩ [1, 2]) = false ∧
    hasCompleteParse ⟨0, [⟨0, [1, 0]⟩, ⟨0, [2]⟩]⟩
      (run ⟨0, [⟨0, [1, 0]⟩, ⟨0, [2]⟩]⟩ [1, 2]) = true := by
  constructor
  · decide
  · decide

/-- Witness: the claim-C3 theorem evaluated on a concrete grammar with an
empty-RHS rule, where symbol 0 is nullable. -/
theorem nullables_correct_witness :
    (∀ N : Sym, N ∈ nullables ⟨0, [⟨0, []⟩]⟩ ↔ Derives ⟨0, [⟨0, []⟩]⟩ [N] []) ∧
    nullableStep ⟨0, [⟨0, []⟩]⟩ (nullables ⟨0, [⟨0, []⟩]⟩) = nullables ⟨0, [⟨0, []⟩]⟩ ∧
    (∀ P : Sym → Prop, (∀ r ∈ Grammar.rules ⟨0, [⟨0, []⟩]⟩, (∀ s ∈ r.rhs, P s) → P r.lhs) →
      ∀ N ∈ nullables ⟨0, [⟨0, []⟩]⟩, P N) :=
  nullables_correct ⟨0, [⟨0, []⟩]⟩

end Lotsawa
